import Mathlib

/-!
Verification development for the clause-comparison engine of `app.js`
(clause segmentation, Ratcliff/Obershelp similarity, diff engine, status
classifier).

JS strings are modelled as `List Char` (`Str`).  JS numbers that only ever
hold integers are modelled as `Nat`/`Int`; the similarity ratio, an exact
IEEE quotient of integers, is modelled as `ℚ` (the claims under study —
symmetry, range, fixed values — are invariant under this choice because both
sides of every comparison are quotients of the same integer operands).
User-supplied `ignoreRegexes` (compiled with flags "ig") are modelled in
their literal-pattern fragment: case-insensitive global substring removal,
which is what the documentation of the normalizer describes.
-/

namespace Simularity

abbrev Str := List Char

/-- JS `\s` / `trim` whitespace, restricted to the code points that occur in
line-oriented contract text: space, tab, LF, VT, FF, CR, NBSP. -/
def isWS (c : Char) : Bool :=
  c.toNat = 32 || c.toNat = 9 || c.toNat = 10 || c.toNat = 11 ||
  c.toNat = 12 || c.toNat = 13 || c.toNat = 160

/-- JS `\d`, i.e. the ASCII digits. -/
def isDigit (c : Char) : Bool := 48 ≤ c.toNat && c.toNat ≤ 57

/-- JS `String.prototype.toLowerCase`, restricted to the alphabets the
program's regexes and texts use: ASCII `A`–`Z` and Cyrillic `А`–`Я`, `Ё`. -/
def jsToLower (c : Char) : Char :=
  if 65 ≤ c.toNat ∧ c.toNat ≤ 90 then Char.ofNat (c.toNat + 32)
  else if 0x410 ≤ c.toNat ∧ c.toNat ≤ 0x42F then Char.ofNat (c.toNat + 32)
  else if c.toNat = 0x401 then Char.ofNat 0x451
  else c

/-- `trim` of the leading whitespace run. -/
def trimStart (s : Str) : Str := s.dropWhile isWS

/-- `replace(/\s+$/,"")`: drop the trailing whitespace run. -/
def trimEnd (s : Str) : Str := (s.reverse.dropWhile isWS).reverse

/-- JS `String.prototype.trim`. -/
def trimWS (s : Str) : Str := trimEnd (trimStart s)

/-- `replace(/\s+/g," ")`: collapse every whitespace run to a single space.
The `Bool` flag records whether the scanner is inside a run whose space has
already been emitted. -/
def collapseGo : Bool → Str → Str
  | _, [] => []
  | inRun, c :: t =>
    if isWS c then
      if inRun then collapseGo true t else ' ' :: collapseGo true t
    else c :: collapseGo false t

/-- `normalizeWS(s){ return (s||"").replace(WS_RE," ").trim(); }` -/
def normalizeWS (s : Str) : Str := trimWS (collapseGo false s)

/-- One step of `String.prototype.replace(/pat/ig, "")` for a literal
pattern: a left-to-right scan removing non-overlapping case-insensitive
occurrences.  The `Nat` argument counts pattern characters still to be
skipped from an occurrence already recognised. -/
def removeScan (p : Str) : Nat → Str → Str
  | _, [] => []
  | k + 1, _ :: t => removeScan p k t
  | 0, c :: t =>
    if ((c :: t).take p.length).map jsToLower = p.map jsToLower then
      removeScan p (p.length - 1) t
    else c :: removeScan p 0 t

/-- `text.replace(rgx, "")` for one compiled (literal, "ig") pattern. -/
def removeAllCI (p s : Str) : Str := if p = [] then s else removeScan p 0 s

/-- `applyIgnore(text, ignoreRegexes)`: fold the removals in list order. -/
def applyIgnore (text : Str) (ignorePats : List Str) : Str :=
  ignorePats.foldl (fun t p => removeAllCI p t) text

/-! ### Ratcliff/Obershelp similarity -/

/-- `lcsuf a b i j` is the value the DP table of `longestCommonSubstring`
holds at row `i`, column `j`: the length of the longest common suffix of
`a.take i` and `b.take j`. -/
def lcsuf (a b : Str) : Nat → Nat → Nat
  | 0, _ => 0
  | _ + 1, 0 => 0
  | i + 1, j + 1 =>
    if a.getD i default = b.getD j default then lcsuf a b i j + 1 else 0

/-- State of the `longestCommonSubstring` loop: the previous DP row and the
best (length, end-in-`a`) pair found so far. -/
structure LCSSt where
  prev : List Nat
  bestLen : Nat
  bestEnd : Nat

/-- The inner `if(curr[j]>bestLen){bestLen=curr[j];bestEnd=i;}` update,
folded over the values of the current row. -/
def bestStep (i : Nat) (p : Nat × Nat) (v : Nat) : Nat × Nat :=
  if v > p.1 then (v, i) else p

/-- One iteration of the outer `for(let i=1;i<=n;i++)` loop (`i = i0+1`):
compute the current row from `prev` and update the best pair. -/
def lcsStep (a b : Str) (st : LCSSt) (i0 : Nat) : LCSSt :=
  let curr := (List.range b.length).map fun j0 =>
    if a.getD i0 default = b.getD j0 default then st.prev.getD j0 0 + 1 else 0
  let best := curr.foldl (bestStep (i0 + 1)) (st.bestLen, st.bestEnd)
  ⟨0 :: curr, best.1, best.2⟩

/-- `longestCommonSubstring(a,b)`: returns `{bestLen, bestEnd}`. -/
def longestCommonSubstring (a b : Str) : Nat × Nat :=
  let fin := (List.range a.length).foldl (lcsStep a b)
    ⟨List.replicate (b.length + 1) 0, 0, 0⟩
  (fin.bestLen, fin.bestEnd)

/-- Invariant-passing induction for a fold over `List.range n`. -/
theorem foldl_range_inv {σ : Type*} (f : σ → Nat → σ) (P : Nat → σ → Prop)
    (n : Nat) (init : σ) (h0 : P 0 init)
    (hs : ∀ i s, i < n → P i s → P (i + 1) (f s i)) :
    P n ((List.range n).foldl f init) := by
  induction n with
  | zero => simpa using h0
  | succ m ih =>
    rw [List.range_succ, List.foldl_append]
    exact hs m _ (Nat.lt_succ_self m)
      (ih (fun i s hi => hs i s (Nat.lt_succ_of_lt hi)))

theorem lcsuf_le_left (a b : Str) : ∀ i j, lcsuf a b i j ≤ i
  | 0, _ => Nat.le_refl 0
  | _ + 1, 0 => by simp [lcsuf]
  | i + 1, j + 1 => by
    rw [lcsuf]
    split
    · exact Nat.succ_le_succ (lcsuf_le_left a b i j)
    · exact Nat.zero_le _

theorem lcsuf_le_right (a b : Str) : ∀ i j, lcsuf a b i j ≤ j
  | 0, _ => Nat.zero_le _
  | _ + 1, 0 => by simp [lcsuf]
  | i + 1, j + 1 => by
    rw [lcsuf]
    split
    · exact Nat.succ_le_succ (lcsuf_le_right a b i j)
    · exact Nat.zero_le _

theorem lcsuf_self_diag (a : Str) : ∀ i, lcsuf a a i i = i
  | 0 => rfl
  | i + 1 => by rw [lcsuf, if_pos rfl, lcsuf_self_diag a i]

/-- Characters matched by a common suffix of positive length agree
pairwise, counting back from the ends. -/
theorem lcsuf_char_eq (a b : Str) : ∀ i j k, k < lcsuf a b i j →
    a.getD (i - 1 - k) default = b.getD (j - 1 - k) default
  | 0, _, _, h => absurd h (by simp [lcsuf])
  | _ + 1, 0, _, h => absurd h (by simp [lcsuf])
  | i + 1, j + 1, k, h => by
    rw [lcsuf] at h
    split at h
    · match k with
      | 0 => simpa using ‹a.getD i default = b.getD j default›
      | k' + 1 =>
        have h2 := lcsuf_char_eq a b i j k' (Nat.lt_of_succ_lt_succ h)
        have e1 : i - 1 - k' = i - (k' + 1) := by omega
        have e2 : j - 1 - k' = j - (k' + 1) := by omega
        rw [e1, e2] at h2
        simpa using h2
    · exact absurd h (by omega)

/-- No-update lemma for the best-pair fold: if every row value is at most
the current best length, the fold is the identity. -/
theorem bestFold_noupdate (i : Nat) (L : List Nat) (p : Nat × Nat)
    (h : ∀ v ∈ L, v ≤ p.1) : L.foldl (bestStep i) p = p := by
  induction L with
  | nil => rfl
  | cons v t ih =>
    have hv : ¬ v > p.1 := by
      have := h v (List.mem_cons_self v t)
      omega
    simp only [List.foldl_cons, bestStep, if_neg hv]
    exact ih fun w hw => h w (List.mem_cons_of_mem _ hw)

/-- Case analysis for the best-pair fold: either nothing improved, or the
final pair is a strictly larger row value together with the row index. -/
theorem bestFold_cases (i : Nat) (L : List Nat) (p : Nat × Nat) :
    L.foldl (bestStep i) p = p ∨
    ((L.foldl (bestStep i) p).1 ∈ L ∧ (L.foldl (bestStep i) p).2 = i ∧
      (L.foldl (bestStep i) p).1 > p.1) := by
  induction L generalizing p with
  | nil => exact Or.inl rfl
  | cons v t ih =>
    simp only [List.foldl_cons, bestStep]
    by_cases hv : v > p.1
    · rw [if_pos hv]
      rcases ih (v, i) with h | ⟨h1, h2, h3⟩
      · exact Or.inr ⟨by rw [h]; exact List.mem_cons_self v t, by rw [h], by rw [h]; exact hv⟩
      · exact Or.inr ⟨List.mem_cons_of_mem _ h1, h2, by omega⟩
    · rw [if_neg hv]
      rcases ih p with h | ⟨h1, h2, h3⟩
      · exact Or.inl h
      · exact Or.inr ⟨List.mem_cons_of_mem _ h1, h2, h3⟩

theorem getD_map_range (f : Nat → Nat) (m j : Nat) :
    ((List.range m).map f).getD j 0 = if j < m then f j else 0 := by
  rw [List.getD_eq_getElem?_getD, List.getElem?_map]
  by_cases h : j < m
  · rw [List.getElem?_range h]; simp [h]
  · rw [List.getElem?_eq_none (by simpa using Nat.le_of_not_lt h)]; simp [h]

/-- The DP row carried by the loop state is row `i` of `lcsuf`. -/
def RowInv (a b : Str) (i : Nat) (st : LCSSt) : Prop :=
  st.prev.length = b.length + 1 ∧
  ∀ j0, j0 ≤ b.length → st.prev.getD j0 0 = lcsuf a b i j0

/-- The best pair is either untouched or records a genuine `lcsuf` value. -/
def BestInv (a b : Str) (i : Nat) (st : LCSSt) : Prop :=
  (st.bestLen = 0 ∧ st.bestEnd = 0) ∨
  (1 ≤ st.bestLen ∧ st.bestLen ≤ st.bestEnd ∧ st.bestEnd ≤ i ∧
    ∃ j, 1 ≤ j ∧ j ≤ b.length ∧ lcsuf a b st.bestEnd j = st.bestLen)

theorem lcsStep_row (a b : Str) (st : LCSSt) (i0 : Nat)
    (h : RowInv a b i0 st) : RowInv a b (i0 + 1) (lcsStep a b st i0) := by
  obtain ⟨hlen, hrow⟩ := h
  constructor
  · simp [lcsStep]
  · intro j0 hj
    show (0 :: (List.range b.length).map fun j0 =>
      if a.getD i0 default = b.getD j0 default then st.prev.getD j0 0 + 1
      else 0).getD j0 0 = _
    match j0 with
    | 0 => simp [lcsuf]
    | k + 1 =>
      have hk : k < b.length := by omega
      simp only [List.getD_cons_succ]
      rw [getD_map_range, if_pos hk, hrow k (Nat.le_of_lt hk), lcsuf]

/-- Unfolding equation for `lcsStep`. -/
theorem lcsStep_eq (a b : Str) (st : LCSSt) (i0 : Nat) :
    lcsStep a b st i0 =
      ⟨0 :: (List.range b.length).map fun j0 =>
          if a.getD i0 default = b.getD j0 default then st.prev.getD j0 0 + 1
          else 0,
        (((List.range b.length).map fun j0 =>
          if a.getD i0 default = b.getD j0 default then st.prev.getD j0 0 + 1
          else 0).foldl (bestStep (i0 + 1)) (st.bestLen, st.bestEnd)).1,
        (((List.range b.length).map fun j0 =>
          if a.getD i0 default = b.getD j0 default then st.prev.getD j0 0 + 1
          else 0).foldl (bestStep (i0 + 1)) (st.bestLen, st.bestEnd)).2⟩ := rfl

theorem lcsStep_best (a b : Str) (st : LCSSt) (i0 : Nat)
    (h : RowInv a b i0 st) (hb : BestInv a b i0 st) :
    BestInv a b (i0 + 1) (lcsStep a b st i0) := by
  obtain ⟨hlen, hrow⟩ := h
  have hcurr : ∀ v ∈ (List.range b.length).map fun j0 =>
      (if a.getD i0 default = b.getD j0 default then st.prev.getD j0 0 + 1
        else 0), ∃ j0, j0 < b.length ∧ v = lcsuf a b (i0 + 1) (j0 + 1) := by
    intro v hv
    obtain ⟨j0, hj0, hfv⟩ := List.mem_map.mp hv
    have hj0' : j0 < b.length := List.mem_range.mp hj0
    refine ⟨j0, hj0', ?_⟩
    rw [← hfv, lcsuf, hrow j0 (Nat.le_of_lt hj0')]
  rw [lcsStep_eq]
  unfold BestInv
  dsimp only
  have hcases := bestFold_cases (i0 + 1)
    ((List.range b.length).map fun j0 =>
      if a.getD i0 default = b.getD j0 default then st.prev.getD j0 0 + 1
      else 0) (st.bestLen, st.bestEnd)
  set q := ((List.range b.length).map fun j0 =>
      if a.getD i0 default = b.getD j0 default then st.prev.getD j0 0 + 1
      else 0).foldl (bestStep (i0 + 1)) (st.bestLen, st.bestEnd) with hq
  rcases hcases with hsame | ⟨hmem, hsnd, hgt⟩
  · have e1 : q.1 = st.bestLen := by rw [hsame]
    have e2 : q.2 = st.bestEnd := by rw [hsame]
    simp only [e1, e2]
    rcases hb with ⟨h1, h2⟩ | ⟨h1, h2, h3, j, hj⟩
    · exact Or.inl ⟨h1, h2⟩
    · exact Or.inr ⟨h1, h2, Nat.le_succ_of_le h3, j, hj⟩
  · obtain ⟨j0, hj0, hval⟩ := hcurr _ hmem
    have hgt' : st.bestLen < q.1 := hgt
    refine Or.inr ⟨by omega, ?_, ?_, j0 + 1, by omega, by omega, ?_⟩
    · show q.1 ≤ q.2
      rw [hsnd, hval]
      exact lcsuf_le_left a b (i0 + 1) (j0 + 1)
    · show q.2 ≤ i0 + 1
      rw [hsnd]
    · show lcsuf a b q.2 (j0 + 1) = q.1
      rw [hsnd, hval]

/-- Soundness of `longestCommonSubstring`: a nonzero best length is a real
common-suffix value at the recorded end position. -/
theorem lcs_sound (a b : Str)
    (h : (longestCommonSubstring a b).1 ≠ 0) :
    1 ≤ (longestCommonSubstring a b).1 ∧
    (longestCommonSubstring a b).1 ≤ (longestCommonSubstring a b).2 ∧
    (longestCommonSubstring a b).2 ≤ a.length ∧
    ∃ j, 1 ≤ j ∧ j ≤ b.length ∧
      lcsuf a b (longestCommonSubstring a b).2 j =
        (longestCommonSubstring a b).1 := by
  have hinv := foldl_range_inv (lcsStep a b)
    (fun i st => RowInv a b i st ∧ BestInv a b i st) a.length
    ⟨List.replicate (b.length + 1) 0, 0, 0⟩
    ⟨⟨by simp, fun j0 _ => by
        rw [List.getD_eq_getElem?_getD, List.getElem?_replicate]
        split <;> rfl⟩, Or.inl ⟨rfl, rfl⟩⟩
    (fun i s _ hP => ⟨lcsStep_row a b s i hP.1, lcsStep_best a b s i hP.1 hP.2⟩)
  have hfin : longestCommonSubstring a b =
      (((List.range a.length).foldl (lcsStep a b)
        ⟨List.replicate (b.length + 1) 0, 0, 0⟩).bestLen,
       ((List.range a.length).foldl (lcsStep a b)
        ⟨List.replicate (b.length + 1) 0, 0, 0⟩).bestEnd) := rfl
  rw [hfin] at h ⊢
  rcases hinv.2 with ⟨hz, _⟩ | ⟨h1', h2', h3', j, hj1, hj2, hj3⟩
  · exact absurd hz h
  · exact ⟨h1', h2', h3', j, hj1, hj2, hj3⟩

/-- Comparing a string with itself: the DP finds the whole string, ending at
`a.length`, as the best common run. -/
theorem lcs_self (a : Str) : longestCommonSubstring a a = (a.length, a.length) := by
  have hinv := foldl_range_inv (lcsStep a a)
    (fun i st => RowInv a a i st ∧ st.bestLen = i ∧ st.bestEnd = i) a.length
    ⟨List.replicate (a.length + 1) 0, 0, 0⟩
    ⟨⟨by simp, fun j0 _ => by
        rw [List.getD_eq_getElem?_getD, List.getElem?_replicate]
        split <;> rfl⟩, rfl, rfl⟩ ?step
  case step =>
    intro i0 st hi hP
    obtain ⟨hrowinv, hbl, hbe⟩ := hP
    have hrow := hrowinv.2
    refine ⟨lcsStep_row a a st i0 hrowinv, ?_⟩
    rw [lcsStep_eq]
    dsimp only
    set f := fun j0 => if a.getD i0 default = a.getD j0 default then
      st.prev.getD j0 0 + 1 else 0 with hf
    have hfval : ∀ j0, j0 < a.length → f j0 = lcsuf a a (i0 + 1) (j0 + 1) := by
      intro j0 hj
      rw [hf]
      dsimp only
      rw [lcsuf, hrow j0 (Nat.le_of_lt hj)]
    have hsplit : List.range a.length = (List.range i0 ++ [i0]) ++
        (List.range (a.length - i0 - 1)).map (fun k => i0 + 1 + k) := by
      have h1 : i0 + 1 + (a.length - i0 - 1) = a.length := by omega
      conv_lhs => rw [← h1]
      rw [List.range_add, List.range_succ]
    rw [hbl, hbe, hsplit, List.map_append, List.map_append,
      List.foldl_append, List.foldl_append]
    have e1 : (List.map f (List.range i0)).foldl (bestStep (i0 + 1))
        (i0, i0) = (i0, i0) := by
      refine bestFold_noupdate _ _ _ ?_
      intro v hv
      obtain ⟨j0, hj0, hfv⟩ := List.mem_map.mp hv
      have hj0' : j0 < i0 := List.mem_range.mp hj0
      rw [← hfv, hfval j0 (by omega)]
      have := lcsuf_le_right a a (i0 + 1) (j0 + 1)
      show lcsuf a a (i0 + 1) (j0 + 1) ≤ i0
      omega
    have e2 : (List.map f [i0]).foldl (bestStep (i0 + 1)) (i0, i0) =
        (i0 + 1, i0 + 1) := by
      have hfi : f i0 = i0 + 1 := by
        rw [hfval i0 hi, lcsuf_self_diag]
      simp [bestStep, hfi]
    have e3 : (List.map f ((List.range (a.length - i0 - 1)).map
        (fun k => i0 + 1 + k))).foldl (bestStep (i0 + 1))
        (i0 + 1, i0 + 1) = (i0 + 1, i0 + 1) := by
      refine bestFold_noupdate _ _ _ ?_
      intro v hv
      rw [List.map_map] at hv
      obtain ⟨k, hk, hfv⟩ := List.mem_map.mp hv
      have hk' : k < a.length - i0 - 1 := List.mem_range.mp hk
      rw [← hfv]
      show f (i0 + 1 + k) ≤ i0 + 1
      rw [hfval (i0 + 1 + k) (by omega)]
      have := lcsuf_le_left a a (i0 + 1) (i0 + 1 + k + 1)
      omega
    rw [e1, e2, e3]
    exact ⟨rfl, rfl⟩
  have hfin : longestCommonSubstring a a =
      (((List.range a.length).foldl (lcsStep a a)
        ⟨List.replicate (a.length + 1) 0, 0, 0⟩).bestLen,
       ((List.range a.length).foldl (lcsStep a a)
        ⟨List.replicate (a.length + 1) 0, 0, 0⟩).bestEnd) := rfl
  rw [hfin, hinv.2.1, hinv.2.2]

/-- JS `String.prototype.slice` with two (possibly negative) arguments:
negative indices count from the end, then both are clamped to `[0, n]`. -/
def jsSlice (l : Str) (s e : Int) : Str :=
  let n : Int := l.length
  let s1 := (if s < 0 then max (n + s) 0 else min s n).toNat
  let e1 := (if e < 0 then max (n + e) 0 else min e n).toNat
  (l.take e1).drop s1

/-- JS `slice` with one argument: `l.slice(s) = l.slice(s, l.length)`. -/
def jsSliceFrom (l : Str) (s : Int) : Str := jsSlice l s l.length

/-- First index at which `pat` occurs in the second argument, if any. -/
def strFind (pat : Str) : Str → Option Nat
  | [] => if pat.isPrefixOf [] then some 0 else none
  | c :: t => if pat.isPrefixOf (c :: t) then some 0
              else (strFind pat t).map (· + 1)

/-- JS `String.prototype.indexOf` (`-1` when the pattern does not occur). -/
def strIndexOf (hay pat : Str) : Int :=
  match strFind pat hay with
  | some n => (n : Int)
  | none => -1

theorem jsSlice_of_nonneg (l : Str) (s e : Int) (hs0 : 0 ≤ s)
    (hsn : s ≤ l.length) (he0 : 0 ≤ e) (hen : e ≤ l.length) :
    jsSlice l s e = (l.take e.toNat).drop s.toNat := by
  simp only [jsSlice]
  rw [if_neg (by omega), if_neg (by omega), min_eq_left hsn, min_eq_left hen]

theorem jsSlice_zero_len (l : Str) (e : Int) (he0 : 0 ≤ e)
    (hen : e ≤ l.length) : (jsSlice l 0 e).length = e.toNat := by
  rw [jsSlice_of_nonneg l 0 e le_rfl (by exact_mod_cast Nat.zero_le _) he0 hen]
  simp
  omega

theorem jsSliceFrom_nat (l : Str) (s : Nat) (hs : s ≤ l.length) :
    jsSliceFrom l (s : Int) = l.drop s := by
  unfold jsSliceFrom
  rw [jsSlice_of_nonneg l s l.length (by exact_mod_cast Nat.zero_le _)
    (by exact_mod_cast hs) (by exact_mod_cast Nat.zero_le _) le_rfl]
  simp

theorem strFind_spec (pat : Str) : ∀ hay p, strFind pat hay = some p →
    pat <+: hay.drop p ∧ p + pat.length ≤ hay.length
  | [], p, h => by
    rw [strFind] at h
    split at h
    · cases h
      have hpp := List.isPrefixOf_iff_prefix.mp ‹_›
      have : pat = [] := List.prefix_nil.mp hpp
      simp [this]
    · cases h
  | c :: t, p, h => by
    rw [strFind] at h
    split at h
    · cases h
      have hp := List.isPrefixOf_iff_prefix.mp ‹_›
      exact ⟨hp, by simpa using hp.length_le⟩
    · match hf : strFind pat t with
      | none => rw [hf] at h; cases h
      | some q =>
        rw [hf] at h
        cases h
        obtain ⟨h1, h2⟩ := strFind_spec pat t q hf
        exact ⟨by simpa using h1, by simp only [List.length_cons]; omega⟩

theorem strFind_isSome_of_occurs (pat : Str) :
    ∀ hay, (∃ s1 s2, s1 ++ pat ++ s2 = hay) → (strFind pat hay).isSome
  | [], h => by
    obtain ⟨s1, s2, hs⟩ := h
    have hnil : pat = [] := by
      have := List.append_eq_nil.mp hs
      have := List.append_eq_nil.mp this.1
      exact this.2
    rw [strFind, hnil]
    simp [List.isPrefixOf]
  | c :: t, h => by
    rw [strFind]
    by_cases hpre : pat.isPrefixOf (c :: t) = true
    · rw [if_pos hpre]; rfl
    · rw [if_neg hpre]
      obtain ⟨s1, s2, hs⟩ := h
      match s1, hs with
      | [], hs =>
        have hpp := List.isPrefixOf_iff_prefix.mpr ⟨s2, by simpa using hs⟩
        exact absurd hpp hpre
      | x :: s1t, hs =>
        simp only [List.cons_append] at hs
        have h2 : s1t ++ pat ++ s2 = t := (List.cons.injEq _ _ _ _).mp hs |>.2
        simpa using strFind_isSome_of_occurs pat t ⟨s1t, s2, h2⟩

theorem strFind_self (a : Str) : strFind a a = some 0 := by
  cases a with
  | nil => rw [strFind]; simp [List.isPrefixOf]
  | cons c t =>
    have hpp := List.isPrefixOf_iff_prefix.mpr (List.prefix_refl (c :: t))
    rw [strFind, if_pos hpp]

/-- `roMatches(a,b)`: total number of matched characters of the recursive
Ratcliff/Obershelp scheme. -/
def roMatches (a b : Str) : Nat :=
  if h0 : a = [] ∨ b = [] then 0
  else
    if hbl : (longestCommonSubstring a b).1 = 0 then 0
    else
      let bestLen := (longestCommonSubstring a b).1
      let bestEnd := (longestCommonSubstring a b).2
      let aStart : Int := (bestEnd : Int) - (bestLen : Int)
      let mid := jsSlice a aStart (bestEnd : Int)
      let bStart : Int := strIndexOf b mid
      bestLen +
        roMatches (jsSlice a 0 aStart) (jsSlice b 0 bStart) +
        roMatches (jsSliceFrom a (bestEnd : Int))
          (jsSliceFrom b (bStart + (bestLen : Int)))
termination_by a.length
decreasing_by
  · obtain ⟨h1, h2, h3, -⟩ := lcs_sound a b hbl
    have hlen := jsSlice_zero_len a
      ((longestCommonSubstring a b).2 - (longestCommonSubstring a b).1)
      (by omega) (by push_cast; omega)
    have ha : a ≠ [] := fun hc => h0 (Or.inl hc)
    have ha' : 1 ≤ a.length := List.length_pos.mpr ha
    omega
  · obtain ⟨h1, h2, h3, -⟩ := lcs_sound a b hbl
    have hlen := jsSliceFrom_nat a (longestCommonSubstring a b).2 h3
    have ha : a ≠ [] := fun hc => h0 (Or.inl hc)
    have ha' : 1 ≤ a.length := List.length_pos.mpr ha
    rw [hlen]
    simp only [List.length_drop]
    omega

/-- The common-suffix slices matched by `lcsuf` are equal as lists. -/
theorem lcsuf_slice_eq (a b : Str) (i j : Nat) (hi : i ≤ a.length)
    (hj : j ≤ b.length) :
    (a.take i).drop (i - lcsuf a b i j) =
      (b.take j).drop (j - lcsuf a b i j) := by
  have hLi := lcsuf_le_left a b i j
  have hLj := lcsuf_le_right a b i j
  apply List.ext_getElem
  · simp only [List.length_drop, List.length_take]
    omega
  · intro n hn1 hn2
    simp only [List.length_drop, List.length_take] at hn1
    have hnL : n < lcsuf a b i j := by omega
    have hchars := lcsuf_char_eq a b i j (lcsuf a b i j - 1 - n) (by omega)
    rw [List.getElem_drop, List.getElem_drop, List.getElem_take,
      List.getElem_take]
    have e1 : i - 1 - (lcsuf a b i j - 1 - n) = i - lcsuf a b i j + n := by
      omega
    have e2 : j - 1 - (lcsuf a b i j - 1 - n) = j - lcsuf a b i j + n := by
      omega
    rw [e1, e2] at hchars
    rw [List.getD_eq_getElem a default (by omega),
      List.getD_eq_getElem b default (by omega)] at hchars
    exact hchars

theorem slice_occurs (b : Str) (j L : Nat) :
    ∃ s1 s2, s1 ++ (b.take j).drop (j - L) ++ s2 = b := by
  refine ⟨b.take (j - L), b.drop j, ?_⟩
  have h1 : b.take (j - L) = (b.take j).take (j - L) := by
    rw [List.take_take, min_eq_left (by omega)]
  rw [h1, List.take_append_drop, List.take_append_drop]

/-- In the recursive branch of `roMatches`, the extracted `mid` really
occurs in `b`: `indexOf` returns a position `p` with `p + bestLen ≤ |b|`. -/
theorem roMatches_mid_found (a b : Str)
    (hbl : (longestCommonSubstring a b).1 ≠ 0) :
    ∃ p : Nat,
      strFind (jsSlice a
        (((longestCommonSubstring a b).2 : Int) -
          ((longestCommonSubstring a b).1 : Int))
        ((longestCommonSubstring a b).2 : Int)) b = some p ∧
      p + (longestCommonSubstring a b).1 ≤ b.length := by
  obtain ⟨h1, h2, h3, j, hj1, hj2, hj3⟩ := lcs_sound a b hbl
  have hmid : jsSlice a
      (((longestCommonSubstring a b).2 : Int) -
        ((longestCommonSubstring a b).1 : Int))
      ((longestCommonSubstring a b).2 : Int) =
      (a.take (longestCommonSubstring a b).2).drop
        ((longestCommonSubstring a b).2 - (longestCommonSubstring a b).1) := by
    rw [jsSlice_of_nonneg a _ _ (by omega) (by push_cast; omega)
      (by positivity) (by exact_mod_cast h3)]
    have e1 : (((longestCommonSubstring a b).2 : Int) -
        ((longestCommonSubstring a b).1 : Int)).toNat =
        (longestCommonSubstring a b).2 - (longestCommonSubstring a b).1 := by
      omega
    have e2 : ((longestCommonSubstring a b).2 : Int).toNat =
        (longestCommonSubstring a b).2 := by omega
    rw [e1, e2]
  have hslice := lcsuf_slice_eq a b (longestCommonSubstring a b).2 j h3 hj2
  rw [hj3] at hslice
  have hocc : ∃ s1 s2, s1 ++ jsSlice a
      (((longestCommonSubstring a b).2 : Int) -
        ((longestCommonSubstring a b).1 : Int))
      ((longestCommonSubstring a b).2 : Int) ++ s2 = b := by
    rw [hmid, hslice]
    exact slice_occurs b j _
  obtain ⟨p, hp⟩ := Option.isSome_iff_exists.mp
    (strFind_isSome_of_occurs _ b hocc)
  refine ⟨p, hp, ?_⟩
  have hspec := (strFind_spec _ b p hp).2
  have hlen : (jsSlice a
      (((longestCommonSubstring a b).2 : Int) -
        ((longestCommonSubstring a b).1 : Int))
      ((longestCommonSubstring a b).2 : Int)).length =
      (longestCommonSubstring a b).1 := by
    rw [hmid]
    simp only [List.length_drop, List.length_take]
    omega
  omega

/-- `similarityRatio(a,b)` over exact rationals. -/
def similarityRatio (a b : Str) : ℚ :=
  if a = [] ∧ b = [] then 1
  else (2 * (roMatches a b : ℚ)) / ((a.length : ℚ) + (b.length : ℚ))

theorem roMatches_nil_left (b : Str) : roMatches [] b = 0 := by
  rw [roMatches, dif_pos (Or.inl rfl)]

/-- Unfolding of `roMatches` in its recursive branch. -/
theorem roMatches_pos_eq (a b : Str) (h0 : ¬(a = [] ∨ b = []))
    (hbl : ¬((longestCommonSubstring a b).1 = 0)) :
    roMatches a b =
      (longestCommonSubstring a b).1 +
      roMatches
        (jsSlice a 0 (((longestCommonSubstring a b).2 : Int) -
          ((longestCommonSubstring a b).1 : Int)))
        (jsSlice b 0 (strIndexOf b (jsSlice a
          (((longestCommonSubstring a b).2 : Int) -
            ((longestCommonSubstring a b).1 : Int))
          ((longestCommonSubstring a b).2 : Int)))) +
      roMatches (jsSliceFrom a ((longestCommonSubstring a b).2 : Int))
        (jsSliceFrom b (strIndexOf b (jsSlice a
          (((longestCommonSubstring a b).2 : Int) -
            ((longestCommonSubstring a b).1 : Int))
          ((longestCommonSubstring a b).2 : Int)) +
          ((longestCommonSubstring a b).1 : Int))) := by
  conv_lhs => rw [roMatches]
  simp only [dif_neg h0, dif_neg hbl]

theorem roMatches_le_aux : ∀ (n : Nat) (a b : Str), a.length ≤ n →
    roMatches a b ≤ a.length ∧ roMatches a b ≤ b.length := by
  intro n
  induction n with
  | zero =>
    intro a b ha
    have h : a = [] := List.eq_nil_of_length_eq_zero (by omega)
    rw [h, roMatches_nil_left]
    exact ⟨Nat.zero_le _, Nat.zero_le _⟩
  | succ m ih =>
    intro a b ha
    by_cases h0 : a = [] ∨ b = []
    · rw [roMatches, dif_pos h0]
      exact ⟨Nat.zero_le _, Nat.zero_le _⟩
    · by_cases hbl : (longestCommonSubstring a b).1 = 0
      · rw [roMatches]
        simp only [dif_neg h0, dif_pos hbl]
        exact ⟨Nat.zero_le _, Nat.zero_le _⟩
      · rw [roMatches_pos_eq a b h0 hbl]
        obtain ⟨h1, h2, h3, -⟩ := lcs_sound a b hbl
        obtain ⟨p, hp, hpb⟩ := roMatches_mid_found a b hbl
        have ha1 : a ≠ [] := fun hc => h0 (Or.inl hc)
        have ha2 : 1 ≤ a.length := List.length_pos.mpr ha1
        have hidx : strIndexOf b (jsSlice a
            (((longestCommonSubstring a b).2 : Int) -
              ((longestCommonSubstring a b).1 : Int))
            ((longestCommonSubstring a b).2 : Int)) = (p : Int) := by
          unfold strIndexOf
          rw [hp]
        rw [hidx]
        have hA1 : jsSlice a 0 (((longestCommonSubstring a b).2 : Int) -
            ((longestCommonSubstring a b).1 : Int)) =
            a.take ((longestCommonSubstring a b).2 -
              (longestCommonSubstring a b).1) := by
          rw [jsSlice_of_nonneg a 0 _ le_rfl (by exact_mod_cast Nat.zero_le _)
            (by omega) (by push_cast; omega)]
          have e1 : (((longestCommonSubstring a b).2 : Int) -
              ((longestCommonSubstring a b).1 : Int)).toNat =
              (longestCommonSubstring a b).2 -
                (longestCommonSubstring a b).1 := by omega
          rw [e1]
          simp
        have hB1 : jsSlice b 0 (p : Int) = b.take p := by
          rw [jsSlice_of_nonneg b 0 _ le_rfl (by exact_mod_cast Nat.zero_le _)
            (by positivity) (by exact_mod_cast by omega)]
          simp
        have hA2 : jsSliceFrom a ((longestCommonSubstring a b).2 : Int) =
            a.drop (longestCommonSubstring a b).2 := jsSliceFrom_nat a _ h3
        have hB2 : jsSliceFrom b ((p : Int) +
            ((longestCommonSubstring a b).1 : Int)) =
            b.drop (p + (longestCommonSubstring a b).1) := by
          have e : (p : Int) + ((longestCommonSubstring a b).1 : Int) =
              ((p + (longestCommonSubstring a b).1 : Nat) : Int) := by
            push_cast
            ring
          rw [e, jsSliceFrom_nat b _ (by omega)]
        rw [hA1, hB1, hA2, hB2]
        have ihL := ih (a.take ((longestCommonSubstring a b).2 -
          (longestCommonSubstring a b).1)) (b.take p)
          (by simp only [List.length_take]; omega)
        have ihR := ih (a.drop (longestCommonSubstring a b).2)
          (b.drop (p + (longestCommonSubstring a b).1))
          (by simp only [List.length_drop]; omega)
        simp only [List.length_take, List.length_drop] at ihL ihR
        exact ⟨by omega, by omega⟩

/-- The match total never exceeds either string length. -/
theorem roMatches_le (a b : Str) :
    roMatches a b ≤ a.length ∧ roMatches a b ≤ b.length :=
  roMatches_le_aux a.length a b le_rfl

theorem roMatches_nil_right (a : Str) : roMatches a [] = 0 := by
  rw [roMatches, dif_pos (Or.inr rfl)]

/-- Fuel-indexed evaluator for `roMatches` (structural recursion, so that the
kernel can reduce concrete instances); agrees with `roMatches` whenever
`a.length ≤ fuel` (`roMatchesF_eq`). -/
def roMatchesF : Nat → Str → Str → Nat
  | 0, _, _ => 0
  | fuel + 1, a, b =>
    if a = [] ∨ b = [] then 0
    else
      if (longestCommonSubstring a b).1 = 0 then 0
      else
        let bestLen := (longestCommonSubstring a b).1
        let bestEnd := (longestCommonSubstring a b).2
        let aStart : Int := (bestEnd : Int) - (bestLen : Int)
        let mid := jsSlice a aStart (bestEnd : Int)
        let bStart : Int := strIndexOf b mid
        bestLen +
          roMatchesF fuel (jsSlice a 0 aStart) (jsSlice b 0 bStart) +
          roMatchesF fuel (jsSliceFrom a (bestEnd : Int))
            (jsSliceFrom b (bStart + (bestLen : Int)))

theorem roMatchesF_eq : ∀ (fuel : Nat) (a b : Str), a.length ≤ fuel →
    roMatchesF fuel a b = roMatches a b := by
  intro fuel
  induction fuel with
  | zero =>
    intro a b ha
    have h : a = [] := List.eq_nil_of_length_eq_zero (by omega)
    rw [h, roMatches_nil_left]
    rfl
  | succ m ih =>
    intro a b ha
    by_cases h0 : a = [] ∨ b = []
    · rw [roMatches, dif_pos h0]
      simp only [roMatchesF, if_pos h0]
    · by_cases hbl : (longestCommonSubstring a b).1 = 0
      · rw [roMatches]
        simp only [dif_neg h0, dif_pos hbl, roMatchesF, if_neg h0, if_pos hbl]
      · rw [roMatches_pos_eq a b h0 hbl]
        show roMatchesF (m + 1) a b = _
        simp only [roMatchesF, if_neg h0, if_neg hbl]
        obtain ⟨h1, h2, h3, -⟩ := lcs_sound a b hbl
        have ha1 : a ≠ [] := fun hc => h0 (Or.inl hc)
        have ha2 : 1 ≤ a.length := List.length_pos.mpr ha1
        have hlen1 : (jsSlice a 0 (((longestCommonSubstring a b).2 : Int) -
            ((longestCommonSubstring a b).1 : Int))).length ≤ m := by
          rw [jsSlice_zero_len a _ (by omega) (by push_cast; omega)]
          omega
        have hlen2 : (jsSliceFrom a
            ((longestCommonSubstring a b).2 : Int)).length ≤ m := by
          rw [jsSliceFrom_nat a _ h3]
          simp only [List.length_drop]
          omega
        rw [ih _ _ hlen1, ih _ _ hlen2]

/-- `roMatches` on a string and itself matches every character. -/
theorem roMatches_self (a : Str) : roMatches a a = a.length := by
  rcases eq_or_ne a [] with h | h
  · rw [h, roMatches_nil_left]
    rfl
  · have h0 : ¬(a = [] ∨ a = []) := by simp [h]
    have hbl : ¬((longestCommonSubstring a a).1 = 0) := by
      rw [lcs_self]
      show ¬ a.length = 0
      have := List.length_pos.mpr h
      omega
    rw [roMatches_pos_eq a a h0 hbl]
    simp only [lcs_self]
    have e0 : ((a.length : Int)) - ((a.length : Int)) = 0 := by ring
    rw [e0]
    have hmid : jsSlice a 0 (a.length : Int) = a := by
      rw [jsSlice_of_nonneg a 0 a.length le_rfl
        (by exact_mod_cast Nat.zero_le _) (by exact_mod_cast Nat.zero_le _)
        le_rfl]
      simp
    rw [hmid]
    have hio : strIndexOf a a = 0 := by
      unfold strIndexOf
      rw [strFind_self]
      rfl
    rw [hio]
    have hz : jsSlice a 0 0 = [] := by
      rw [jsSlice_of_nonneg a 0 0 le_rfl (by exact_mod_cast Nat.zero_le _)
        le_rfl (by exact_mod_cast Nat.zero_le _)]
      simp
    rw [hz, roMatches_nil_left]
    have hdrop : jsSliceFrom a (a.length : Int) = [] := by
      rw [jsSliceFrom_nat a a.length le_rfl]
      simp
    rw [hdrop, roMatches_nil_left]
    omega

/-! ### Normalization lemmas -/

theorem charOfNat_toNat (n : Nat) (h : n < 55296) :
    (Char.ofNat n).toNat = n := by
  have hv : n.isValidChar := Or.inl h
  simp only [Char.ofNat, hv, reduceDIte, Char.ofNatAux, Char.toNat]
  rfl

theorem isWS_eq_false_of_ge (c : Char) (h : 61 ≤ c.toNat)
    (h2 : c.toNat ≠ 160) : isWS c = false := by
  simp only [isWS, Bool.or_eq_false_iff, decide_eq_false_iff_not]
  omega

theorem isWS_jsToLower (c : Char) : isWS (jsToLower c) = isWS c := by
  unfold jsToLower
  split_ifs with h1 h2 h3
  · have ht : (Char.ofNat (c.toNat + 32)).toNat = c.toNat + 32 :=
      charOfNat_toNat _ (by omega)
    rw [isWS_eq_false_of_ge _ (by omega) (by omega),
      isWS_eq_false_of_ge c (by omega) (by omega)]
  · have ht : (Char.ofNat (c.toNat + 32)).toNat = c.toNat + 32 :=
      charOfNat_toNat _ (by omega)
    rw [isWS_eq_false_of_ge _ (by omega) (by omega),
      isWS_eq_false_of_ge c (by omega) (by omega)]
  · have ht : (Char.ofNat 0x451).toNat = 0x451 := charOfNat_toNat _ (by omega)
    rw [isWS_eq_false_of_ge _ (by omega) (by omega),
      isWS_eq_false_of_ge c (by omega) (by omega)]
  · rfl

theorem jsToLower_fixed_of (c : Char) (h1 : ¬(65 ≤ c.toNat ∧ c.toNat ≤ 90))
    (h2 : ¬(0x410 ≤ c.toNat ∧ c.toNat ≤ 0x42F)) (h3 : ¬(c.toNat = 0x401)) :
    jsToLower c = c := by
  unfold jsToLower
  rw [if_neg h1, if_neg h2, if_neg h3]

theorem jsToLower_idem (c : Char) : jsToLower (jsToLower c) = jsToLower c := by
  by_cases h1 : 65 ≤ c.toNat ∧ c.toNat ≤ 90
  · have e : jsToLower c = Char.ofNat (c.toNat + 32) := by
      unfold jsToLower
      rw [if_pos h1]
    have ht : (Char.ofNat (c.toNat + 32)).toNat = c.toNat + 32 :=
      charOfNat_toNat _ (by omega)
    rw [e]
    exact jsToLower_fixed_of _ (by omega) (by omega) (by omega)
  · by_cases h2 : 0x410 ≤ c.toNat ∧ c.toNat ≤ 0x42F
    · have e : jsToLower c = Char.ofNat (c.toNat + 32) := by
        unfold jsToLower
        rw [if_neg h1, if_pos h2]
      have ht : (Char.ofNat (c.toNat + 32)).toNat = c.toNat + 32 :=
        charOfNat_toNat _ (by omega)
      rw [e]
      exact jsToLower_fixed_of _ (by omega) (by omega) (by omega)
    · by_cases h3 : c.toNat = 0x401
      · have e : jsToLower c = Char.ofNat 0x451 := by
          unfold jsToLower
          rw [if_neg h1, if_neg h2, if_pos h3]
        have ht : (Char.ofNat 0x451).toNat = 0x451 :=
          charOfNat_toNat _ (by omega)
        rw [e]
        exact jsToLower_fixed_of _ (by omega) (by omega) (by omega)
      · rw [jsToLower_fixed_of c h1 h2 h3, jsToLower_fixed_of c h1 h2 h3]

/-- Whitespace discipline of collapsed text: every whitespace character is a
plain space and no two adjacent characters are both whitespace. -/
def WSClean (s : Str) : Prop :=
  (∀ c ∈ s, isWS c = true → c = ' ') ∧
  List.Chain' (fun c d => ¬(isWS c = true ∧ isWS d = true)) s

/-- The head (if any) is not whitespace. -/
def HeadNW (s : Str) : Prop := ∀ c, s.head? = some c → isWS c = false

/-- The last character (if any) is not whitespace. -/
def LastNW (s : Str) : Prop := HeadNW s.reverse

theorem collapseGo_clean (s : Str) : ∀ flag,
    WSClean (collapseGo flag s) ∧
    (flag = true → HeadNW (collapseGo flag s)) := by
  induction s with
  | nil =>
    intro flag
    have heq : collapseGo flag [] = [] := by cases flag <;> rfl
    rw [heq]
    exact ⟨⟨by simp, List.chain'_nil⟩, fun _ c hc => by simp at hc⟩
  | cons c t ih =>
    intro flag
    by_cases hc : isWS c = true
    · cases flag with
      | true =>
        have heq : collapseGo true (c :: t) = collapseGo true t := by
          simp [collapseGo, hc]
        rw [heq]
        exact ⟨(ih true).1, fun _ => (ih true).2 rfl⟩
      | false =>
        have iht := ih true
        have heq : collapseGo false (c :: t) = ' ' :: collapseGo true t := by
          simp [collapseGo, hc]
        rw [heq]
        constructor
        · constructor
          · intro d hd _
            rcases List.mem_cons.mp hd with h | h
            · exact h
            · exact (iht.1).1 d h ‹_›
          · rw [List.chain'_cons']
            refine ⟨?_, (iht.1).2⟩
            intro b hb
            have hbn := iht.2 rfl b (by simpa using hb)
            intro hcontra
            rw [hbn] at hcontra
            exact absurd hcontra.2 (by simp)
        · intro hflag
          cases hflag
    · have ihf := ih false
      have heq : collapseGo flag (c :: t) = c :: collapseGo false t := by
        cases flag <;> simp [collapseGo, hc]
      rw [heq]
      constructor
      · constructor
        · intro d hd hws
          rcases List.mem_cons.mp hd with h | h
          · rw [h] at hws
            exact absurd hws (by simp [hc])
          · exact (ihf.1).1 d h hws
        · rw [List.chain'_cons']
          refine ⟨?_, (ihf.1).2⟩
          intro b _
          intro hcontra
          exact absurd hcontra.1 (by simp [hc])
      · intro _
        intro d hd
        rw [List.head?_cons] at hd
        cases hd
        simpa using hc

theorem collapseGo_fix (s : Str) (h : WSClean s) :
    collapseGo false s = s ∧ (HeadNW s → collapseGo true s = s) := by
  induction s with
  | nil => exact ⟨rfl, fun _ => rfl⟩
  | cons c t ih =>
    obtain ⟨hall, hchain⟩ := h
    have htclean : WSClean t :=
      ⟨fun d hd => hall d (List.mem_cons_of_mem _ hd), hchain.tail⟩
    have iht := ih htclean
    by_cases hc : isWS c = true
    · have hcsp : c = ' ' := hall c (List.mem_cons_self c t) hc
      have hHt : HeadNW t := by
        intro d hd
        have := (List.chain'_cons'.mp hchain).1 d hd
        by_contra hcon
        exact this ⟨hc, by simpa using hcon⟩
      constructor
      · show collapseGo false (c :: t) = c :: t
        rw [show collapseGo false (c :: t) = ' ' :: collapseGo true t from by
          simp [collapseGo, hc]]
        rw [iht.2 hHt, hcsp]
      · intro hH
        have := hH c (by rw [List.head?_cons])
        rw [this] at hc
        cases hc
    · have h1 : collapseGo false (c :: t) = c :: collapseGo false t := by
        simp [collapseGo, hc]
      have h2 : collapseGo true (c :: t) = c :: collapseGo false t := by
        simp [collapseGo, hc]
      exact ⟨by rw [h1, iht.1], fun _ => by rw [h2, iht.1]⟩

theorem WSClean_of_suffix {s t : Str} (h : WSClean s) (hs : t <:+ s) :
    WSClean t :=
  ⟨fun c hc => h.1 c (hs.sublist.subset hc), h.2.suffix hs⟩

theorem WSClean_of_front {s t : Str} (h : WSClean s) (hp : t <+: s) :
    WSClean t := by
  refine ⟨fun c hc => h.1 c (hp.sublist.subset hc), ?_⟩
  have hch := h.2
  exact hch.prefix hp

theorem HeadNW_dropWhile (s : Str) : HeadNW (s.dropWhile isWS) := by
  induction s with
  | nil => intro c hc; simp at hc
  | cons c t ih =>
    by_cases hc : isWS c = true
    · rw [List.dropWhile_cons_of_pos hc]
      exact ih
    · rw [List.dropWhile_cons_of_neg (by simpa using hc)]
      intro d hd
      rw [List.head?_cons] at hd
      cases hd
      simpa using hc

theorem trimStart_fix (s : Str) (h : HeadNW s) : trimStart s = s := by
  cases s with
  | nil => rfl
  | cons c t =>
    have := h c (by rw [List.head?_cons])
    unfold trimStart
    rw [List.dropWhile_cons_of_neg (by simp [this])]

theorem trimEnd_fix (s : Str) (h : LastNW s) : trimEnd s = s := by
  unfold trimEnd
  have he : List.dropWhile isWS s.reverse = s.reverse := trimStart_fix s.reverse h
  rw [he]
  exact List.reverse_reverse s

theorem HeadNW_of_front {s t : Str} (h : HeadNW s) (hp : t <+: s) :
    HeadNW t := by
  cases t with
  | nil => intro c hc; simp at hc
  | cons c t' =>
    obtain ⟨r, hr⟩ := hp
    intro d hd
    rw [List.head?_cons] at hd
    cases hd
    exact h c (by rw [← hr]; rfl)

theorem trimEnd_front (s : Str) : trimEnd s <+: s := by
  unfold trimEnd
  rw [← List.reverse_suffix, List.reverse_reverse]
  exact List.dropWhile_suffix isWS

theorem trimWS_headNW (s : Str) : HeadNW (trimWS s) :=
  HeadNW_of_front (HeadNW_dropWhile s) (trimEnd_front (trimStart s))

theorem trimWS_lastNW (s : Str) : LastNW (trimWS s) := by
  show HeadNW (trimEnd (trimStart s)).reverse
  unfold trimEnd
  rw [List.reverse_reverse]
  exact HeadNW_dropWhile _

theorem trimWS_fix (s : Str) (hH : HeadNW s) (hL : LastNW s) :
    trimWS s = s := by
  unfold trimWS
  rw [trimStart_fix s hH, trimEnd_fix s hL]

theorem WSClean_map_jsToLower {s : Str} (h : WSClean s) :
    WSClean (s.map jsToLower) := by
  constructor
  · intro c hc hws
    obtain ⟨d, hd, hdc⟩ := List.mem_map.mp hc
    rw [← hdc] at hws ⊢
    rw [isWS_jsToLower] at hws
    rw [h.1 d hd hws]
    rfl
  · rw [List.chain'_map]
    refine h.2.imp ?_
    intro a b hab hcon
    rw [isWS_jsToLower, isWS_jsToLower] at hcon
    exact hab hcon

theorem HeadNW_map_jsToLower {s : Str} (h : HeadNW s) :
    HeadNW (s.map jsToLower) := by
  cases s with
  | nil => intro c hc; simp at hc
  | cons d t =>
    intro c hc
    have hc1 : some (jsToLower d) = some c := hc
    injection hc1 with hc2
    rw [← hc2, isWS_jsToLower]
    exact h d (by rw [List.head?_cons])

theorem LastNW_map_jsToLower {s : Str} (h : LastNW s) :
    LastNW (s.map jsToLower) := by
  unfold LastNW at *
  rw [← List.map_reverse]
  exact HeadNW_map_jsToLower h

theorem map_jsToLower_idem (s : Str) :
    (s.map jsToLower).map jsToLower = s.map jsToLower := by
  rw [List.map_map]
  exact List.map_congr_left fun c _ => jsToLower_idem c

/-- The transform applied to each clause body before scoring in
`compareClauses`: `normalizeWS(applyIgnore(text, ignoreRegexes)).toLowerCase()`. -/
def normalizeForCmp (ignorePats : List Str) (t : Str) : Str :=
  (normalizeWS (applyIgnore t ignorePats)).map jsToLower

theorem applyIgnore_fix (u : Str) (pats : List Str)
    (h : ∀ p ∈ pats, removeAllCI p u = u) : applyIgnore u pats = u := by
  induction pats with
  | nil => rfl
  | cons p ps ih =>
    show List.foldl _ (removeAllCI p u) ps = u
    rw [h p (List.mem_cons_self p ps)]
    exact ih fun q hq => h q (List.mem_cons_of_mem _ hq)

theorem normalize_fixpoint (u : Str) (hclean : WSClean u) (hH : HeadNW u)
    (hL : LastNW u) (hlow : u.map jsToLower = u) :
    (normalizeWS u).map jsToLower = u := by
  unfold normalizeWS
  rw [(collapseGo_fix u hclean).1, trimWS_fix u hH hL, hlow]

theorem normalizeForCmp_props (pats : List Str) (t : Str) :
    WSClean (normalizeForCmp pats t) ∧ HeadNW (normalizeForCmp pats t) ∧
    LastNW (normalizeForCmp pats t) ∧
    (normalizeForCmp pats t).map jsToLower = normalizeForCmp pats t := by
  unfold normalizeForCmp normalizeWS
  have hv : WSClean (collapseGo false (applyIgnore t pats)) :=
    (collapseGo_clean _ false).1
  have hvt : WSClean (trimWS (collapseGo false (applyIgnore t pats))) :=
    WSClean_of_front (WSClean_of_suffix hv (List.dropWhile_suffix isWS))
      (trimEnd_front _)
  exact ⟨WSClean_map_jsToLower hvt,
    HeadNW_map_jsToLower (trimWS_headNW _),
    LastNW_map_jsToLower (trimWS_lastNW _),
    map_jsToLower_idem _⟩

/-- Normalization is a no-op on its own output as long as no ignore pattern
matches the normalized text (always the case for an empty pattern list). -/
theorem normalizeForCmp_idem (pats : List Str) (t : Str)
    (h : ∀ p ∈ pats, removeAllCI p (normalizeForCmp pats t) =
      normalizeForCmp pats t) :
    normalizeForCmp pats (normalizeForCmp pats t) = normalizeForCmp pats t := by
  obtain ⟨h1, h2, h3, h4⟩ := normalizeForCmp_props pats t
  show (normalizeWS (applyIgnore (normalizeForCmp pats t) pats)).map
    jsToLower = _
  rw [applyIgnore_fix _ _ h]
  exact normalize_fixpoint _ h1 h2 h3 h4

/-! ### Clause reference ordering -/

/-- JS `a.split(".")`. -/
def splitDot : Str → List Str
  | [] => [[]]
  | c :: t =>
    if c = '.' then [] :: splitDot t
    else
      match splitDot t with
      | [] => [[c]]
      | h :: r => (c :: h) :: r

/-- Digit-run value (the runs at hand are short, so no float rounding). -/
def digitsVal (ds : Str) : Int :=
  ds.foldl (fun acc c => 10 * acc + ((c.toNat - 48 : Nat) : Int)) 0

/-- JS `parseInt(x, 10)`: skip leading whitespace, optional sign, then a
nonempty digit run; `none` models `NaN`. -/
def parseIntJS (s : Str) : Option Int :=
  match s.dropWhile isWS with
  | '-' :: r =>
    if r.takeWhile isDigit = [] then none
    else some (-(digitsVal (r.takeWhile isDigit)))
  | '+' :: r =>
    if r.takeWhile isDigit = [] then none
    else some (digitsVal (r.takeWhile isDigit))
  | r =>
    if r.takeWhile isDigit = [] then none
    else some (digitsVal (r.takeWhile isDigit))

/-- `Number.isFinite(pa[i]) ? pa[i] : 1e9`: component at an index, with the
sentinel for missing (`undefined`) or unparsable (`NaN`) components. -/
def valAt (l : List (Option Int)) (i : Nat) : Int :=
  match l.getD i none with
  | some v => v
  | none => 1000000000

/-- The component loop of `sortClauseRef`: `k` indices remain, starting at
`i`; returns `va - vb` at the first differing index, `0` if none differ. -/
def cmpRefLoop (pa pb : List (Option Int)) : Nat → Nat → Int
  | 0, _ => 0
  | k + 1, i =>
    if valAt pa i = valAt pb i then cmpRefLoop pa pb k (i + 1)
    else valAt pa i - valAt pb i

/-- JS `a.localeCompare(b)` modelled as code-point lexicographic three-way
comparison (the strings compared are digit/ASCII clause data). -/
def listLexCmp : Str → Str → Int
  | [], [] => 0
  | [], _ :: _ => -1
  | _ :: _, [] => 1
  | c :: s, d :: t => if c < d then -1 else if d < c then 1 else listLexCmp s t

/-- `sortClauseRef(a,b)`. -/
def sortClauseRef (a b : Str) : Int :=
  let pa := (splitDot a).map parseIntJS
  let pb := (splitDot b).map parseIntJS
  let r := cmpRefLoop pa pb (max pa.length pb.length) 0
  if r = 0 then listLexCmp a b else r

/-! ### Diff engine and status classifier -/

/-- A discrepancy record (`{clause_ref, diff_type, similarity?}`). -/
structure Diff where
  clause_ref : Str
  diff_type : Str
  similarity : Option ℚ
deriving DecidableEq

/-- The comparator passed to `diffs.sort`. -/
def cmpDiff (x y : Diff) : Int :=
  if sortClauseRef x.clause_ref y.clause_ref ≠ 0 then
    sortClauseRef x.clause_ref y.clause_ref
  else listLexCmp x.diff_type y.diff_type

/-- Stable insertion: the new element goes after every element not strictly
greater than it. -/
def insertCmp {α : Type*} (cmp : α → α → Int) (x : α) : List α → List α
  | [] => [x]
  | y :: ys => if cmp x y < 0 then x :: y :: ys else y :: insertCmp cmp x ys

/-- Model of `Array.prototype.sort(cmp)` (stable since ES2019): stable
insertion sort. -/
def sortByCmp {α : Type*} (cmp : α → α → Int) (l : List α) : List α :=
  l.foldl (fun acc x => insertCmp cmp x acc) []

/-- JS `Map.prototype.has` over the association-list model. -/
def mapHas (m : List (Str × Str)) (k : Str) : Bool :=
  (m.find? (fun e => e.1 = k)).isSome

/-- JS `Map.prototype.get` (`none` models `undefined`). -/
def mapGet? (m : List (Str × Str)) (k : Str) : Option Str :=
  (m.find? (fun e => e.1 = k)).map (·.2)

/-- `compareClauses(etalonMap, clientMap, opts)`; `opts.ignoreRegexes` and
`opts.similarityThreshold` are passed explicitly (the JS defaults are `[]`
and `0.985`). -/
def compareClauses (etalonMap clientMap : List (Str × Str))
    (ignorePats : List Str) (simThreshold : ℚ) : List Diff :=
  let part1 := etalonMap.flatMap fun e =>
    if mapHas clientMap e.1 = false then
      [⟨e.1, "MISSING".toList, none⟩]
    else
      let clText := (mapGet? clientMap e.1).getD []
      let a := normalizeForCmp ignorePats e.2
      let b := normalizeForCmp ignorePats clText
      let sim := similarityRatio a b
      if sim < simThreshold then [⟨e.1, "CHANGED".toList, some sim⟩] else []
  let part2 := clientMap.filterMap fun e =>
    if mapHas etalonMap e.1 = false then
      some ⟨e.1, "EXTRA".toList, none⟩
    else none
  sortByCmp cmpDiff (part1 ++ part2)

/-- The scan loop of `classifyStatus` (returns "DIFFS" if it falls through). -/
def classifyScan (criticalSet : List Str) (criticalMinSim : ℚ) :
    List Diff → Str
  | [] => "DIFFS".toList
  | d :: rest =>
    if d.clause_ref ∈ criticalSet then
      if d.diff_type = "MISSING".toList then "NOT_APPLIED".toList
      else if d.diff_type = "CHANGED".toList ∧
          d.similarity.getD 0 < criticalMinSim then "NOT_APPLIED".toList
      else classifyScan criticalSet criticalMinSim rest
    else classifyScan criticalSet criticalMinSim rest

/-- `classifyStatus(diffs, criticalSet, criticalMinSim)`. -/
def classifyStatus (diffs : List Diff) (criticalSet : List Str)
    (criticalMinSim : ℚ) : Str :=
  if diffs = [] then "OK".toList
  else classifyScan criticalSet criticalMinSim diffs

/-! ### Clause segmentation (hand-compiled `CL_START_RE`) -/

/-- The separator class `[)\.\-–:]` of `CL_START_RE`. -/
def isSepChar (c : Char) : Bool :=
  c = ')' || c = '.' || c = '-' || c = '–' || c = ':'

/-- The separator part `\s*(?:[)\.\-–:]\s+|\s+)` of `CL_START_RE`, with the
regex engine's backtracking resolved: after skipping the whitespace run, the
first alternative fires when a separator character followed by whitespace is
next; otherwise, if at least one whitespace character was available, the
engine backs up one character and the second alternative consumes it.
Returns the `rest` capture. -/
def parseSep (s : Str) : Option Str :=
  match s.dropWhile isWS with
  | c :: d :: r2 =>
    if isSepChar c && isWS d then some ((d :: r2).dropWhile isWS)
    else if s.takeWhile isWS ≠ [] then some (c :: d :: r2) else none
  | [c] =>
    if s.takeWhile isWS ≠ [] then some [c] else none
  | [] =>
    if s.takeWhile isWS ≠ [] then some [] else none

/-- Greedy parse of up to `fuel` groups `(?:\.\d+)`. Returns the parsed
digit groups and the remainder. -/
def parseGroups : Nat → Str → List Str × Str
  | 0, s => ([], s)
  | fuel + 1, s =>
    match s with
    | [] => ([], [])
    | c :: t =>
      if c = '.' ∧ t.takeWhile isDigit ≠ [] then
        let p := parseGroups fuel (t.dropWhile isDigit)
        (t.takeWhile isDigit :: p.1, p.2)
      else ([], c :: t)

/-- `'.' ++ g`: a group as written in the source string. -/
def dotGroup (g : Str) : Str := '.' :: g

/-- Backtracking over the group count `{0,6}`: try keeping `k` groups, then
`k-1`, …, `0`. Returns the `num` capture and the `rest` capture. -/
def tryNum (d : Str) (gs : List Str) (rest0 : Str) : Nat → Option (Str × Str)
  | 0 =>
    match parseSep (gs.flatMap dotGroup ++ rest0) with
    | some r => some (d, r)
    | none => none
  | k + 1 =>
    match parseSep ((gs.drop (k + 1)).flatMap dotGroup ++ rest0) with
    | some r => some (d ++ (gs.take (k + 1)).flatMap dotGroup, r)
    | none => tryNum d gs rest0 k

/-- The `(?<num>\d+(?:\.\d+){0,6})` part followed by the separator. -/
def parseNumSep (s : Str) : Option (Str × Str) :=
  if s.takeWhile isDigit = [] then none
  else
    let p := parseGroups 6 (s.dropWhile isDigit)
    tryNum (s.takeWhile isDigit) p.1 p.2 p.1.length

/-- Case-insensitive literal prefix strip (for the lead-in markers). -/
def stripCI (pat s : Str) : Option Str :=
  if (s.take pat.length).map jsToLower = pat.map jsToLower then
    some (s.drop pat.length)
  else none

/-- The optional `.` then `\s*` after a short lead-in marker. -/
def afterMarker (r : Str) : Str :=
  (match r with
   | '.' :: r2 => r2
   | _ => r).dropWhile isWS

/-- Remainders produced by the optional lead-in group
`(?:п\.?\s*|пп\.?\s*|пункт\s*|подпункт\s*)?`, in the regex engine's
preference order (the unconsumed alternative comes last). -/
def leadInCands (s : Str) : List Str :=
  [(stripCI "п".toList s).map afterMarker,
   (stripCI "пп".toList s).map afterMarker,
   (stripCI "пункт".toList s).map (·.dropWhile isWS),
   (stripCI "подпункт".toList s).map (·.dropWhile isWS)].filterMap id

/-- First candidate on which the rest of the pattern matches. -/
def firstParse : List Str → Option (Str × Str)
  | [] => none
  | c :: cs =>
    match parseNumSep c with
    | some res => some res
    | none => firstParse cs

/-- `line.match(CL_START_RE)`: returns the `num` and `rest` captures. -/
def matchClauseStart (line : Str) : Option (Str × Str) :=
  firstParse (leadInCands (line.dropWhile isWS) ++ [line.dropWhile isWS])

/-- `text.split(/\r?\n/)`, step 1: split at `\n`. -/
def splitNL : Str → List Str
  | [] => [[]]
  | c :: t =>
    if c = '\n' then [] :: splitNL t
    else
      match splitNL t with
      | [] => [[c]]
      | h :: r => (c :: h) :: r

/-- `text.split(/\r?\n/)`, step 2: a `\r` directly before the `\n` belongs
to the separator. -/
def stripCR (l : Str) : Str :=
  if l.getLast? = some '\r' then l.dropLast else l

/-- `text.split(/\r?\n/)`. -/
def splitLinesJS (text : Str) : List Str := (splitNL text).map stripCR

/-- State of the segmentation loop: the current clause cursor and the
fragment map (in first-insertion order, as a JS `Map`). -/
structure SegSt where
  current : Option Str
  clauses : List (Str × List Str)

def segHasKey (m : List (Str × List Str)) (k : Str) : Bool :=
  (m.find? (fun e => e.1 = k)).isSome

def pushFrag (m : List (Str × List Str)) (k : Str) (frag : Str) :
    List (Str × List Str) :=
  m.map fun e => if e.1 = k then (e.1, e.2 ++ [frag]) else e

/-- The per-line step of `extractClausesFromText`. -/
def segStep (st : SegSt) (ln : Str) : SegSt :=
  if trimWS ln = [] then st
  else
    match matchClauseStart ln with
    | some nr =>
      let m1 := if segHasKey st.clauses nr.1 then st.clauses
                else st.clauses ++ [(nr.1, [])]
      let m2 := if trimWS nr.2 ≠ [] then pushFrag m1 nr.1 (trimWS nr.2)
                else m1
      ⟨some nr.1, m2⟩
    | none =>
      match st.current with
      | none => st
      | some cur => ⟨st.current, pushFrag st.clauses cur (trimWS ln)⟩

/-- `extractClausesFromText(text)`. -/
def extractClausesFromText (text : Str) : List (Str × Str) :=
  let lines := (splitLinesJS text).map trimEnd
  let fin := lines.foldl segStep ⟨none, []⟩
  fin.clauses.map fun e => (e.1, trimWS (List.intercalate ['\n'] e.2))

/-- Tail part of the `\d+(\.\d+){0,6}` shape check: up to `fuel` further
`.digits` components. -/
def dottedTail : Nat → Str → Bool
  | _, [] => true
  | 0, _ => false
  | fuel + 1, c :: t =>
    if c = '.' then
      if t.takeWhile isDigit = [] then false
      else dottedTail fuel (t.dropWhile isDigit)
    else false

/-- Decides whether a string matches `\d+(\.\d+){0,6}` entirely: a dotted
numeric reference of 1 to 7 components. -/
def isDottedNum (s : Str) : Bool :=
  if s.takeWhile isDigit = [] then false
  else dottedTail 6 (s.dropWhile isDigit)

/-! ### Comparator laws -/

theorem listLexCmp_nil_le (c : Str) : listLexCmp [] c ≤ 0 := by
  cases c <;> simp [listLexCmp]

theorem listLexCmp_zero_iff : ∀ a b : Str, listLexCmp a b = 0 ↔ a = b
  | [], [] => by simp [listLexCmp]
  | [], _ :: _ => by simp [listLexCmp]
  | _ :: _, [] => by simp [listLexCmp]
  | a0 :: a', b0 :: b' => by
    simp only [listLexCmp, List.cons.injEq]
    rcases lt_trichotomy a0 b0 with h | h | h
    · rw [if_pos h]
      constructor
      · intro hc
        exact absurd hc (by decide)
      · intro hc
        exact absurd hc.1 (ne_of_lt h)
    · subst h
      rw [if_neg (lt_irrefl a0), if_neg (lt_irrefl a0),
        listLexCmp_zero_iff a' b']
      simp
    · rw [if_neg (lt_asymm h), if_pos h]
      constructor
      · intro hc
        exact absurd hc (by decide)
      · intro hc
        exact absurd hc.1.symm (ne_of_lt h)

theorem listLexCmp_anti : ∀ a b : Str, listLexCmp b a = -listLexCmp a b
  | [], [] => rfl
  | [], _ :: _ => rfl
  | _ :: _, [] => rfl
  | a0 :: a', b0 :: b' => by
    simp only [listLexCmp]
    rcases lt_trichotomy a0 b0 with h | h | h
    · rw [if_neg (lt_asymm h), if_pos h, if_pos h]
      decide
    · subst h
      simp only [if_neg (lt_irrefl a0)]
      exact listLexCmp_anti a' b'
    · rw [if_pos h, if_neg (lt_asymm h), if_pos h]

theorem listLexCmp_le_trans : ∀ a b c : Str, listLexCmp a b ≤ 0 →
    listLexCmp b c ≤ 0 → listLexCmp a c ≤ 0
  | [], _, c, _, _ => listLexCmp_nil_le c
  | _ :: _, [], _, h1, _ => by simp [listLexCmp] at h1
  | _ :: _, _ :: _, [], _, h2 => by simp [listLexCmp] at h2
  | a0 :: a', b0 :: b', c0 :: c', h1, h2 => by
    simp only [listLexCmp] at h1 h2 ⊢
    rcases lt_trichotomy a0 b0 with hab | hab | hab
    · rcases lt_trichotomy b0 c0 with hbc | hbc | hbc
      · rw [if_pos (lt_trans hab hbc)]
        decide
      · subst hbc
        rw [if_pos hab]
        decide
      · rw [if_neg (lt_asymm hbc), if_pos hbc] at h2
        exact absurd h2 (by decide)
    · subst hab
      rw [if_neg (lt_irrefl a0)] at h1
      rcases lt_trichotomy a0 c0 with hac | hac | hac
      · rw [if_pos hac]
        decide
      · subst hac
        rw [if_neg (lt_irrefl a0)] at h2 ⊢
        rw [if_neg (lt_irrefl a0)] at h1 h2 ⊢
        exact listLexCmp_le_trans a' b' c' h1 h2
      · rw [if_neg (lt_asymm hac), if_pos hac] at h2
        exact absurd h2 (by decide)
    · rw [if_neg (lt_asymm hab), if_pos hab] at h1
      exact absurd h1 (by decide)

theorem valAt_of_ge (l : List (Option Int)) (i : Nat) (h : l.length ≤ i) :
    valAt l i = 1000000000 := by
  have he : l.getD i none = none := by
    rw [List.getD_eq_getElem?_getD, List.getElem?_eq_none h]
    rfl
  rw [valAt, he]

theorem cmpRefLoop_zero_iff (pa pb : List (Option Int)) :
    ∀ k i, cmpRefLoop pa pb k i = 0 ↔
      ∀ j, j < k → valAt pa (i + j) = valAt pb (i + j) := by
  intro k
  induction k with
  | zero =>
    intro i
    simp [cmpRefLoop]
  | succ m ih =>
    intro i
    rw [cmpRefLoop]
    by_cases he : valAt pa i = valAt pb i
    · rw [if_pos he, ih (i + 1)]
      constructor
      · intro h j hj
        match j with
        | 0 => simpa using he
        | j' + 1 =>
          have hh := h j' (by omega)
          rw [show i + 1 + j' = i + (j' + 1) from by omega] at hh
          exact hh
      · intro h j hj
        have hh := h (j + 1) (by omega)
        rw [show i + (j + 1) = i + 1 + j from by omega] at hh
        exact hh
    · rw [if_neg he]
      constructor
      · intro hc
        exact absurd (by omega : valAt pa i = valAt pb i) he
      · intro h
        exact absurd (by simpa using h 0 (by omega)) he

theorem cmpRefLoop_neg_iff (pa pb : List (Option Int)) :
    ∀ k i, cmpRefLoop pa pb k i < 0 ↔
      ∃ j, j < k ∧ valAt pa (i + j) < valAt pb (i + j) ∧
        ∀ j2, j2 < j → valAt pa (i + j2) = valAt pb (i + j2) := by
  intro k
  induction k with
  | zero =>
    intro i
    simp [cmpRefLoop]
  | succ m ih =>
    intro i
    rw [cmpRefLoop]
    by_cases he : valAt pa i = valAt pb i
    · rw [if_pos he, ih (i + 1)]
      constructor
      · rintro ⟨j, hj, hlt, hprev⟩
        refine ⟨j + 1, by omega, ?_, ?_⟩
        · rw [show i + (j + 1) = i + 1 + j from by omega]
          exact hlt
        · intro j2 hj2
          match j2 with
          | 0 => simpa using he
          | j2' + 1 =>
            have hh := hprev j2' (by omega)
            rw [show i + 1 + j2' = i + (j2' + 1) from by omega] at hh
            exact hh
      · rintro ⟨j, hj, hlt, hprev⟩
        match j with
        | 0 => exact absurd (by simpa using hlt) (by rw [he]; exact lt_irrefl _)
        | j' + 1 =>
          refine ⟨j', by omega, ?_, ?_⟩
          · rw [show i + 1 + j' = i + (j' + 1) from by omega]
            exact hlt
          · intro j2 hj2
            have hh := hprev (j2 + 1) (by omega)
            rw [show i + (j2 + 1) = i + 1 + j2 from by omega] at hh
            exact hh
    · rw [if_neg he]
      constructor
      · intro hc
        exact ⟨0, by omega, by simpa using (by omega :
          valAt pa i < valAt pb i), fun j2 hj2 => by omega⟩
      · rintro ⟨j, hj, hlt, hprev⟩
        match j with
        | 0 =>
          have : valAt pa i < valAt pb i := by simpa using hlt
          omega
        | j' + 1 => exact absurd (by simpa using hprev 0 (by omega)) he

theorem cmpRefLoop_anti (pa pb : List (Option Int)) :
    ∀ k i, cmpRefLoop pb pa k i = -cmpRefLoop pa pb k i := by
  intro k
  induction k with
  | zero =>
    intro i
    simp [cmpRefLoop]
  | succ m ih =>
    intro i
    rw [cmpRefLoop, cmpRefLoop]
    by_cases he : valAt pa i = valAt pb i
    · rw [if_pos he, if_pos he.symm]
      exact ih (i + 1)
    · rw [if_neg he, if_neg (fun hc => he hc.symm)]
      omega

/-- Pointwise equality of sentinel-padded component sequences. -/
def SeqEq (pa pb : List (Option Int)) : Prop := ∀ i, valAt pa i = valAt pb i

/-- Strict first-difference order on sentinel-padded component sequences. -/
def SeqLt (pa pb : List (Option Int)) : Prop :=
  ∃ i, valAt pa i < valAt pb i ∧ ∀ j, j < i → valAt pa j = valAt pb j

theorem loopMax_zero_iff (pa pb : List (Option Int)) :
    cmpRefLoop pa pb (max pa.length pb.length) 0 = 0 ↔ SeqEq pa pb := by
  rw [cmpRefLoop_zero_iff]
  constructor
  · intro h i
    by_cases hi : i < max pa.length pb.length
    · simpa using h i hi
    · rw [valAt_of_ge pa i (by omega), valAt_of_ge pb i (by omega)]
  · intro h j _
    simpa using h j

theorem loopMax_neg_iff (pa pb : List (Option Int)) :
    cmpRefLoop pa pb (max pa.length pb.length) 0 < 0 ↔ SeqLt pa pb := by
  rw [cmpRefLoop_neg_iff]
  constructor
  · rintro ⟨j, _, hlt, hprev⟩
    exact ⟨j, by simpa using hlt, fun j2 hj2 => by simpa using hprev j2 hj2⟩
  · rintro ⟨i, hlt, hprev⟩
    have hibound : i < max pa.length pb.length := by
      by_contra hc
      rw [valAt_of_ge pa i (by omega), valAt_of_ge pb i (by omega)] at hlt
      exact lt_irrefl _ hlt
    exact ⟨i, hibound, by simpa using hlt,
      fun j2 hj2 => by simpa using hprev j2 hj2⟩

theorem SeqLt_trans {p q r : List (Option Int)} (h1 : SeqLt p q)
    (h2 : SeqLt q r) : SeqLt p r := by
  obtain ⟨i1, hlt1, hprev1⟩ := h1
  obtain ⟨i2, hlt2, hprev2⟩ := h2
  rcases lt_trichotomy i1 i2 with h | h | h
  · exact ⟨i1, by rw [← hprev2 i1 h]; exact hlt1,
      fun j hj => (hprev1 j hj).trans (hprev2 j (lt_trans hj h))⟩
  · subst h
    exact ⟨i1, lt_trans hlt1 hlt2,
      fun j hj => (hprev1 j hj).trans (hprev2 j hj)⟩
  · exact ⟨i2, by rw [hprev1 i2 h]; exact hlt2,
      fun j hj => (hprev1 j (lt_trans hj h)).trans (hprev2 j hj)⟩

theorem SeqLt_of_eq_lt {p q r : List (Option Int)} (h1 : SeqEq p q)
    (h2 : SeqLt q r) : SeqLt p r := by
  obtain ⟨i, hlt, hprev⟩ := h2
  exact ⟨i, by rw [h1 i]; exact hlt, fun j hj => (h1 j).trans (hprev j hj)⟩

theorem SeqLt_of_lt_eq {p q r : List (Option Int)} (h1 : SeqLt p q)
    (h2 : SeqEq q r) : SeqLt p r := by
  obtain ⟨i, hlt, hprev⟩ := h1
  exact ⟨i, by rw [← h2 i]; exact hlt, fun j hj => (hprev j hj).trans (h2 j)⟩

theorem SeqEq_not_lt {p q : List (Option Int)} (h : SeqEq p q) :
    ¬ SeqLt p q := by
  rintro ⟨i, hlt, -⟩
  rw [h i] at hlt
  exact lt_irrefl _ hlt

/-- The parsed component list of a clause reference. -/
def refParts (a : Str) : List (Option Int) := (splitDot a).map parseIntJS

theorem sortClauseRef_eq (a b : Str) :
    sortClauseRef a b =
      if cmpRefLoop (refParts a) (refParts b)
          (max (refParts a).length (refParts b).length) 0 = 0 then
        listLexCmp a b
      else cmpRefLoop (refParts a) (refParts b)
          (max (refParts a).length (refParts b).length) 0 := rfl

theorem sortClauseRef_zero_iff (a b : Str) : sortClauseRef a b = 0 ↔ a = b := by
  rw [sortClauseRef_eq]
  by_cases hr : cmpRefLoop (refParts a) (refParts b)
      (max (refParts a).length (refParts b).length) 0 = 0
  · rw [if_pos hr]
    exact listLexCmp_zero_iff a b
  · rw [if_neg hr]
    constructor
    · intro h
      exact absurd h hr
    · intro h
      subst h
      exact absurd ((loopMax_zero_iff _ _).mpr fun i => rfl) hr

theorem sortClauseRef_neg_iff (a b : Str) :
    sortClauseRef a b < 0 ↔
      (SeqLt (refParts a) (refParts b) ∨
        (SeqEq (refParts a) (refParts b) ∧ listLexCmp a b < 0)) := by
  rw [sortClauseRef_eq]
  by_cases hr : cmpRefLoop (refParts a) (refParts b)
      (max (refParts a).length (refParts b).length) 0 = 0
  · rw [if_pos hr]
    have heq := (loopMax_zero_iff _ _).mp hr
    constructor
    · intro h
      exact Or.inr ⟨heq, h⟩
    · rintro (hlt | ⟨-, h⟩)
      · exact absurd hlt (SeqEq_not_lt heq)
      · exact h
  · rw [if_neg hr]
    rw [loopMax_neg_iff]
    constructor
    · intro h
      exact Or.inl h
    · rintro (h | ⟨heq, -⟩)
      · exact h
      · exact absurd ((loopMax_zero_iff _ _).mpr heq) hr

theorem sortClauseRef_anti (a b : Str) :
    sortClauseRef b a = -sortClauseRef a b := by
  rw [sortClauseRef_eq a b, sortClauseRef_eq b a]
  have hmc : max (refParts b).length (refParts a).length =
      max (refParts a).length (refParts b).length := max_comm _ _
  rw [hmc, cmpRefLoop_anti]
  by_cases hr : cmpRefLoop (refParts a) (refParts b)
      (max (refParts a).length (refParts b).length) 0 = 0
  · rw [if_pos hr, if_pos (by rw [hr]; rfl), listLexCmp_anti]
  · rw [if_neg hr, if_neg (by intro hc; exact hr (by omega))]

theorem listLexCmp_lt_trans (a b c : Str) (h1 : listLexCmp a b < 0)
    (h2 : listLexCmp b c < 0) : listLexCmp a c < 0 := by
  have hle := listLexCmp_le_trans a b c (le_of_lt h1) (le_of_lt h2)
  rcases lt_or_eq_of_le hle with h | h
  · exact h
  · have hac : a = c := (listLexCmp_zero_iff a c).mp h
    subst hac
    rw [listLexCmp_anti] at h2
    omega

theorem sortClauseRef_lt_trans (a b c : Str)
    (h1 : sortClauseRef a b < 0) (h2 : sortClauseRef b c < 0) :
    sortClauseRef a c < 0 := by
  rw [sortClauseRef_neg_iff] at h1 h2 ⊢
  rcases h1 with hab | ⟨heab, hlab⟩ <;> rcases h2 with hbc | ⟨hebc, hlbc⟩
  · exact Or.inl (SeqLt_trans hab hbc)
  · exact Or.inl (SeqLt_of_lt_eq hab hebc)
  · exact Or.inl (SeqLt_of_eq_lt heab hbc)
  · exact Or.inr ⟨fun i => (heab i).trans (hebc i),
      listLexCmp_lt_trans a b c hlab hlbc⟩

theorem cmpDiff_anti (x y : Diff) : cmpDiff y x = -cmpDiff x y := by
  unfold cmpDiff
  by_cases h : sortClauseRef x.clause_ref y.clause_ref = 0
  · have h2 : sortClauseRef y.clause_ref x.clause_ref = 0 := by
      rw [sortClauseRef_anti, h]
      rfl
    rw [if_neg (not_not_intro h2), if_neg (not_not_intro h), listLexCmp_anti]
  · have h2 : sortClauseRef y.clause_ref x.clause_ref ≠ 0 := by
      rw [sortClauseRef_anti]
      omega
    rw [if_pos h2, if_pos h, sortClauseRef_anti]

theorem cmpDiff_le_trans (x y z : Diff) (h1 : cmpDiff x y ≤ 0)
    (h2 : cmpDiff y z ≤ 0) : cmpDiff x z ≤ 0 := by
  unfold cmpDiff at h1 h2 ⊢
  by_cases exy : sortClauseRef x.clause_ref y.clause_ref = 0
  · have hxy : x.clause_ref = y.clause_ref :=
      (sortClauseRef_zero_iff _ _).mp exy
    rw [if_neg (not_not_intro exy)] at h1
    by_cases eyz : sortClauseRef y.clause_ref z.clause_ref = 0
    · have hyz : y.clause_ref = z.clause_ref :=
        (sortClauseRef_zero_iff _ _).mp eyz
      have exz : sortClauseRef x.clause_ref z.clause_ref = 0 :=
        (sortClauseRef_zero_iff _ _).mpr (hxy.trans hyz)
      rw [if_neg (not_not_intro eyz)] at h2
      rw [if_neg (not_not_intro exz)]
      exact listLexCmp_le_trans _ _ _ h1 h2
    · rw [if_pos eyz] at h2
      have exz : sortClauseRef x.clause_ref z.clause_ref =
          sortClauseRef y.clause_ref z.clause_ref := by rw [hxy]
      rw [if_pos (by rw [exz]; exact eyz), exz]
      exact h2
  · rw [if_pos exy] at h1
    have hxylt : sortClauseRef x.clause_ref y.clause_ref < 0 :=
      lt_of_le_of_ne h1 exy
    by_cases eyz : sortClauseRef y.clause_ref z.clause_ref = 0
    · have hyz : y.clause_ref = z.clause_ref :=
        (sortClauseRef_zero_iff _ _).mp eyz
      have exz : sortClauseRef x.clause_ref z.clause_ref =
          sortClauseRef x.clause_ref y.clause_ref := by rw [hyz]
      rw [if_pos (by rw [exz]; exact exy), exz]
      exact h1
    · rw [if_pos eyz] at h2
      have hyzlt : sortClauseRef y.clause_ref z.clause_ref < 0 :=
        lt_of_le_of_ne h2 eyz
      have hlt := sortClauseRef_lt_trans _ _ _ hxylt hyzlt
      rw [if_pos (ne_of_lt hlt)]
      exact le_of_lt hlt

/-! ### Sorting lemmas -/

theorem insertCmp_perm {α : Type*} (cmp : α → α → Int) (x : α) :
    ∀ l : List α, (insertCmp cmp x l).Perm (x :: l)
  | [] => List.Perm.refl _
  | y :: ys => by
    unfold insertCmp
    split
    · exact List.Perm.refl _
    · exact ((insertCmp_perm cmp x ys).cons y).trans (List.Perm.swap x y ys)

theorem sortByCmp_perm {α : Type*} (cmp : α → α → Int) (l : List α) :
    (sortByCmp cmp l).Perm l := by
  have haux : ∀ (t acc : List α),
      (t.foldl (fun acc x => insertCmp cmp x acc) acc).Perm (acc ++ t) := by
    intro t
    induction t with
    | nil => intro acc; simp
    | cons x t' ih =>
      intro acc
      simp only [List.foldl_cons]
      refine (ih (insertCmp cmp x acc)).trans ?_
      refine ((insertCmp_perm cmp x acc).append_right t').trans ?_
      exact List.perm_middle.symm
  simpa using haux l []

theorem insertCmp_pairwise {α : Type*} (cmp : α → α → Int)
    (hanti : ∀ a b, cmp b a = -cmp a b)
    (htrans : ∀ a b c, cmp a b ≤ 0 → cmp b c ≤ 0 → cmp a c ≤ 0)
    (x : α) : ∀ l : List α, l.Pairwise (fun a b => cmp a b ≤ 0) →
    (insertCmp cmp x l).Pairwise (fun a b => cmp a b ≤ 0)
  | [], _ => by simp [insertCmp]
  | y :: ys, hl => by
    rw [List.pairwise_cons] at hl
    obtain ⟨hy, hys⟩ := hl
    unfold insertCmp
    by_cases hxy : cmp x y < 0
    · rw [if_pos hxy, List.pairwise_cons]
      refine ⟨?_, List.pairwise_cons.mpr ⟨hy, hys⟩⟩
      intro z hz
      rcases List.mem_cons.mp hz with h | h
      · rw [h]
        exact le_of_lt hxy
      · exact htrans x y z (le_of_lt hxy) (hy z h)
    · rw [if_neg hxy, List.pairwise_cons]
      constructor
      · intro z hz
        rcases List.mem_cons.mp ((insertCmp_perm cmp x ys).mem_iff.mp hz)
          with h | h
        · rw [h, hanti x y]
          omega
        · exact hy z h
      · exact insertCmp_pairwise cmp hanti htrans x ys hys

theorem sortByCmp_pairwise {α : Type*} (cmp : α → α → Int)
    (hanti : ∀ a b, cmp b a = -cmp a b)
    (htrans : ∀ a b c, cmp a b ≤ 0 → cmp b c ≤ 0 → cmp a c ≤ 0)
    (l : List α) :
    (sortByCmp cmp l).Pairwise (fun a b => cmp a b ≤ 0) := by
  have haux : ∀ (t acc : List α), acc.Pairwise (fun a b => cmp a b ≤ 0) →
      (t.foldl (fun acc x => insertCmp cmp x acc) acc).Pairwise
        (fun a b => cmp a b ≤ 0) := by
    intro t
    induction t with
    | nil => exact fun acc h => h
    | cons x t' ih =>
      exact fun acc h => ih _ (insertCmp_pairwise cmp hanti htrans x acc h)
  exact haux l [] List.Pairwise.nil

/-- The output of `compareClauses` is sorted under `cmpDiff`. -/
theorem compareClauses_sorted (et cl : List (Str × Str)) (pats : List Str)
    (θ : ℚ) :
    (compareClauses et cl pats θ).Pairwise (fun x y => cmpDiff x y ≤ 0) :=
  sortByCmp_pairwise cmpDiff cmpDiff_anti cmpDiff_le_trans _

/-! ### Diff-multiset characterization of `compareClauses` -/

theorem perm_eq_of_short {α : Type*} {l1 l2 : List α} (h : l1.Perm l2)
    (hlen : l2.length ≤ 1) : l1 = l2 := by
  match l2, hlen with
  | [], _ => exact h.eq_nil
  | [x], _ => exact List.perm_singleton.mp h

theorem filter_flatMap_key (m : List (Str × Str)) (r : Str)
    (F : Str × Str → List Diff)
    (hF : ∀ e d, d ∈ F e → d.clause_ref = e.1)
    (hnd : (m.map Prod.fst).Nodup) :
    ((m.flatMap F).filter (fun d => d.clause_ref = r)) =
      match m.find? (fun e => e.1 = r) with
      | some e => F e
      | none => [] := by
  induction m with
  | nil => rfl
  | cons e m' ih =>
    rw [List.map_cons, List.nodup_cons] at hnd
    obtain ⟨hkey, hnd'⟩ := hnd
    rw [List.flatMap_cons, List.filter_append]
    by_cases he : e.1 = r
    · rw [List.find?_cons_of_pos _ (by simpa using he)]
      have h1 : (F e).filter (fun d => d.clause_ref = r) = F e := by
        rw [List.filter_eq_self]
        intro d hd
        simp only [decide_eq_true_eq]
        rw [hF e d hd, he]
      have h2 : (m'.flatMap F).filter (fun d => d.clause_ref = r) = [] := by
        rw [List.filter_eq_nil_iff]
        intro d hd
        obtain ⟨e', he', hde⟩ := List.mem_flatMap.mp hd
        simp only [decide_eq_true_eq]
        rw [hF e' d hde]
        intro hc
        apply hkey
        have hee : e.1 = e'.1 := by rw [he, hc]
        rw [hee]
        exact List.mem_map.mpr ⟨e', he', rfl⟩
      rw [h1, h2, List.append_nil]
    · rw [List.find?_cons_of_neg _ (by simpa using he)]
      have h1 : (F e).filter (fun d => d.clause_ref = r) = [] := by
        rw [List.filter_eq_nil_iff]
        intro d hd
        simp only [decide_eq_true_eq]
        rw [hF e d hd]
        exact he
      rw [h1, List.nil_append]
      exact ih hnd'

theorem filterMap_eq_flatMap_toList {α β : Type*} (g : α → Option β)
    (l : List α) : l.filterMap g = l.flatMap (fun a => (g a).toList) := by
  induction l with
  | nil => rfl
  | cons a t ih =>
    rw [List.filterMap_cons, List.flatMap_cons]
    cases hg : g a with
    | none => simpa [Option.toList] using ih
    | some b => simpa [Option.toList] using ih

/-- The per-reference-entry emission of the first loop of `compareClauses`. -/
def cmpMissingChanged (cl : List (Str × Str)) (pats : List Str) (θ : ℚ)
    (e : Str × Str) : List Diff :=
  if mapHas cl e.1 = false then [⟨e.1, "MISSING".toList, none⟩]
  else
    if similarityRatio (normalizeForCmp pats e.2)
        (normalizeForCmp pats ((mapGet? cl e.1).getD [])) < θ then
      [⟨e.1, "CHANGED".toList,
        some (similarityRatio (normalizeForCmp pats e.2)
          (normalizeForCmp pats ((mapGet? cl e.1).getD [])))⟩]
    else []

/-- The per-candidate-entry emission of the second loop of `compareClauses`. -/
def cmpExtra (et : List (Str × Str)) (e : Str × Str) : Option Diff :=
  if mapHas et e.1 = false then some ⟨e.1, "EXTRA".toList, none⟩ else none

theorem compareClauses_parts (et cl : List (Str × Str)) (pats : List Str)
    (θ : ℚ) :
    compareClauses et cl pats θ =
      sortByCmp cmpDiff (et.flatMap (cmpMissingChanged cl pats θ) ++
        cl.filterMap (cmpExtra et)) := rfl

theorem cmpMissingChanged_ref (cl : List (Str × Str)) (pats : List Str)
    (θ : ℚ) (e : Str × Str) (d : Diff)
    (hd : d ∈ cmpMissingChanged cl pats θ e) : d.clause_ref = e.1 := by
  unfold cmpMissingChanged at hd
  split at hd
  · rw [List.mem_singleton.mp hd]
  · split at hd
    · rw [List.mem_singleton.mp hd]
    · cases hd

theorem cmpExtra_ref (et : List (Str × Str)) (e : Str × Str) (d : Diff)
    (hd : d ∈ (cmpExtra et e).toList) : d.clause_ref = e.1 := by
  unfold cmpExtra at hd
  split at hd
  · have hd2 : d = ⟨e.1, "EXTRA".toList, none⟩ := List.mem_singleton.mp hd
    rw [hd2]
  · cases hd

/-- Per-clause-reference characterization of the diff list: filtering the
output of `compareClauses` at any reference `r` yields exactly the records
the rules prescribe for `r`. -/
theorem compareClauses_filter_key (et cl : List (Str × Str))
    (pats : List Str) (θ : ℚ) (r : Str)
    (hne : (et.map Prod.fst).Nodup) (hnc : (cl.map Prod.fst).Nodup) :
    (compareClauses et cl pats θ).filter (fun d => d.clause_ref = r) =
      match et.find? (fun e => e.1 = r), cl.find? (fun e => e.1 = r) with
      | some e, none => [⟨e.1, "MISSING".toList, none⟩]
      | some e, some c =>
        if similarityRatio (normalizeForCmp pats e.2)
            (normalizeForCmp pats c.2) < θ then
          [⟨e.1, "CHANGED".toList,
            some (similarityRatio (normalizeForCmp pats e.2)
              (normalizeForCmp pats c.2))⟩]
        else []
      | none, some c => [⟨c.1, "EXTRA".toList, none⟩]
      | none, none => [] := by
  have hperm : ((compareClauses et cl pats θ).filter
      (fun d => d.clause_ref = r)).Perm
      ((et.flatMap (cmpMissingChanged cl pats θ) ++
        cl.filterMap (cmpExtra et)).filter (fun d => d.clause_ref = r)) := by
    rw [compareClauses_parts]
    exact (sortByCmp_perm cmpDiff _).filter _
  have hr1 := filter_flatMap_key et r (cmpMissingChanged cl pats θ)
    (cmpMissingChanged_ref cl pats θ) hne
  have hr2 : (cl.filterMap (cmpExtra et)).filter
      (fun d => d.clause_ref = r) =
      match cl.find? (fun e => e.1 = r) with
      | some c => (cmpExtra et c).toList
      | none => [] := by
    rw [filterMap_eq_flatMap_toList]
    exact filter_flatMap_key cl r _ (cmpExtra_ref et) hnc
  have hsplit : ((et.flatMap (cmpMissingChanged cl pats θ) ++
      cl.filterMap (cmpExtra et)).filter (fun d => d.clause_ref = r)) =
      (match et.find? (fun e => e.1 = r) with
        | some e => cmpMissingChanged cl pats θ e
        | none => []) ++
      (match cl.find? (fun e => e.1 = r) with
        | some c => (cmpExtra et c).toList
        | none => []) := by
    rw [List.filter_append, hr1, hr2]
  cases hfe : et.find? (fun e => e.1 = r) with
  | some e =>
    have he : e.1 = r := by simpa using List.find?_some hfe
    cases hfc : cl.find? (fun e => e.1 = r) with
    | some c =>
      have hc : c.1 = r := by simpa using List.find?_some hfc
      have hmc : cmpMissingChanged cl pats θ e =
          if similarityRatio (normalizeForCmp pats e.2)
              (normalizeForCmp pats c.2) < θ then
            [⟨e.1, "CHANGED".toList,
              some (similarityRatio (normalizeForCmp pats e.2)
                (normalizeForCmp pats c.2))⟩]
          else [] := by
        unfold cmpMissingChanged
        have hhas : mapHas cl e.1 = true := by
          unfold mapHas
          rw [he, hfc]
          rfl
        rw [hhas]
        have hget : mapGet? cl e.1 = some c.2 := by
          unfold mapGet?
          rw [he, hfc]
          rfl
        rw [hget]
        rfl
      have hxc : cmpExtra et c = none := by
        unfold cmpExtra
        have hhas : mapHas et c.1 = true := by
          unfold mapHas
          rw [hc, hfe]
          rfl
        rw [hhas]
        rfl
      refine perm_eq_of_short (hperm.trans (List.Perm.of_eq ?_)) ?_
      · rw [hsplit, hfe, hfc]
        dsimp only
        rw [hmc, hxc]
        simp only [Option.toList, List.append_nil]
      · dsimp only
        split <;> simp
    | none =>
      have hmc : cmpMissingChanged cl pats θ e =
          [⟨e.1, "MISSING".toList, none⟩] := by
        unfold cmpMissingChanged
        have hhas : mapHas cl e.1 = false := by
          unfold mapHas
          rw [he, hfc]
          rfl
        rw [hhas]
        rfl
      refine perm_eq_of_short (hperm.trans (List.Perm.of_eq ?_)) ?_
      · rw [hsplit, hfe, hfc]
        dsimp only
        rw [hmc, List.append_nil]
      · simp
  | none =>
    cases hfc : cl.find? (fun e => e.1 = r) with
    | some c =>
      have hc : c.1 = r := by simpa using List.find?_some hfc
      have hxc : cmpExtra et c = some ⟨c.1, "EXTRA".toList, none⟩ := by
        unfold cmpExtra
        have hhas : mapHas et c.1 = false := by
          unfold mapHas
          rw [hc, hfe]
          rfl
        rw [hhas]
        rfl
      refine perm_eq_of_short (hperm.trans (List.Perm.of_eq ?_)) ?_
      · rw [hsplit, hfe, hfc]
        dsimp only
        rw [hxc]
        simp [Option.toList]
      · simp
    | none =>
      refine perm_eq_of_short (hperm.trans (List.Perm.of_eq ?_)) ?_
      · rw [hsplit, hfe, hfc]
        rfl
      · simp

/-! ### Status classifier characterization -/

/-- A diff that triggers the critical escalation in `classifyStatus`. -/
def critFail (criticalSet : List Str) (minSim : ℚ) (d : Diff) : Prop :=
  d.clause_ref ∈ criticalSet ∧
    (d.diff_type = "MISSING".toList ∨
      (d.diff_type = "CHANGED".toList ∧ d.similarity.getD 0 < minSim))

instance critFailDec (crit : List Str) (minSim : ℚ) :
    DecidablePred (critFail crit minSim) := fun d =>
  decidable_of_iff (d.clause_ref ∈ crit ∧
    (d.diff_type = "MISSING".toList ∨
      (d.diff_type = "CHANGED".toList ∧ d.similarity.getD 0 < minSim)))
    Iff.rfl

theorem classifyScan_char (crit : List Str) (minSim : ℚ) :
    ∀ diffs : List Diff, classifyScan crit minSim diffs =
      (if ∃ d ∈ diffs, critFail crit minSim d then "NOT_APPLIED".toList
       else "DIFFS".toList)
  | [] => by simp [classifyScan]
  | d :: rest => by
    rw [classifyScan]
    by_cases h1 : d.clause_ref ∈ crit
    · rw [if_pos h1]
      by_cases h2 : d.diff_type = "MISSING".toList
      · rw [if_pos h2,
          if_pos ⟨d, List.mem_cons_self d rest, h1, Or.inl h2⟩]
      · rw [if_neg h2]
        by_cases h3 : d.diff_type = "CHANGED".toList ∧
            d.similarity.getD 0 < minSim
        · rw [if_pos h3,
            if_pos ⟨d, List.mem_cons_self d rest, h1, Or.inr h3⟩]
        · rw [if_neg h3, classifyScan_char crit minSim rest]
          have hnd : ¬ critFail crit minSim d := fun hc =>
            hc.2.elim h2 h3
          by_cases hrest : ∃ x ∈ rest, critFail crit minSim x
          · obtain ⟨x, hx1, hx2⟩ := hrest
            rw [if_pos ⟨x, hx1, hx2⟩,
              if_pos ⟨x, List.mem_cons_of_mem d hx1, hx2⟩]
          · rw [if_neg hrest, if_neg ?_]
            rintro ⟨x, hx1, hx2⟩
            rcases List.mem_cons.mp hx1 with h | h
            · exact hnd (h ▸ hx2)
            · exact hrest ⟨x, h, hx2⟩
    · rw [if_neg h1, classifyScan_char crit minSim rest]
      have hnd : ¬ critFail crit minSim d := fun hc => h1 hc.1
      by_cases hrest : ∃ x ∈ rest, critFail crit minSim x
      · obtain ⟨x, hx1, hx2⟩ := hrest
        rw [if_pos ⟨x, hx1, hx2⟩,
          if_pos ⟨x, List.mem_cons_of_mem d hx1, hx2⟩]
      · rw [if_neg hrest, if_neg ?_]
        rintro ⟨x, hx1, hx2⟩
        rcases List.mem_cons.mp hx1 with h | h
        · exact hnd (h ▸ hx2)
        · exact hrest ⟨x, h, hx2⟩

theorem classifyStatus_char (diffs : List Diff) (crit : List Str)
    (minSim : ℚ) :
    classifyStatus diffs crit minSim =
      if diffs = [] then "OK".toList
      else if ∃ d ∈ diffs, critFail crit minSim d then "NOT_APPLIED".toList
      else "DIFFS".toList := by
  unfold classifyStatus
  by_cases h : diffs = []
  · rw [if_pos h, if_pos h]
  · rw [if_neg h, if_neg h, classifyScan_char]

/-! ### Segmenter key-shape invariants -/

theorem takeWhile_append_all {α : Type*} (p : α → Bool) :
    ∀ (l1 l2 : List α), (∀ x ∈ l1, p x = true) →
    (l1 ++ l2).takeWhile p = l1 ++ l2.takeWhile p ∧
    (l1 ++ l2).dropWhile p = l2.dropWhile p
  | [], l2, _ => ⟨rfl, rfl⟩
  | x :: l1', l2, h => by
    have hx : p x = true := h x (List.mem_cons_self x l1')
    have ih := takeWhile_append_all p l1' l2
      (fun y hy => h y (List.mem_cons_of_mem x hy))
    constructor
    · rw [List.cons_append, List.takeWhile_cons_of_pos hx, ih.1,
        List.cons_append]
    · rw [List.cons_append, List.dropWhile_cons_of_pos hx, ih.2]

theorem flatMap_dotGroup_head (gl : List Str) :
    (gl.flatMap dotGroup).takeWhile isDigit = [] ∧
    (gl.flatMap dotGroup).dropWhile isDigit = gl.flatMap dotGroup := by
  cases gl with
  | nil => exact ⟨rfl, rfl⟩
  | cons g gl' =>
    have hdot : isDigit '.' = false := by decide
    constructor
    · rw [List.flatMap_cons]
      show (('.' :: g) ++ gl'.flatMap dotGroup).takeWhile isDigit = []
      rw [List.cons_append, List.takeWhile_cons_of_neg (by simp [hdot])]
    · rw [List.flatMap_cons]
      show (('.' :: g) ++ gl'.flatMap dotGroup).dropWhile isDigit = _
      rw [List.cons_append, List.dropWhile_cons_of_neg (by simp [hdot])]
      rfl

theorem dottedTail_of_groups : ∀ (gl : List Str) (fuel : Nat),
    gl.length ≤ fuel →
    (∀ g ∈ gl, g ≠ [] ∧ ∀ c ∈ g, isDigit c = true) →
    dottedTail fuel (gl.flatMap dotGroup) = true
  | [], fuel, _, _ => by cases fuel <;> rfl
  | g :: gl', fuel, hlen, hall => by
    match fuel with
    | 0 => simp at hlen
    | f + 1 =>
      obtain ⟨hg1, hg2⟩ := hall g (List.mem_cons_self g gl')
      have hallrest := fun x hx => hall x (List.mem_cons_of_mem g hx)
      have happ := takeWhile_append_all isDigit g (gl'.flatMap dotGroup) hg2
      have hhead := flatMap_dotGroup_head gl'
      rw [List.flatMap_cons]
      show dottedTail (f + 1) ('.' :: (g ++ gl'.flatMap dotGroup)) = true
      rw [dottedTail, if_pos rfl, happ.2, hhead.2]
      rw [if_neg ?hne]
      case hne =>
        rw [happ.1, hhead.1, List.append_nil]
        simpa using hg1
      exact dottedTail_of_groups gl' f (by simpa using hlen) hallrest

theorem isDottedNum_of_shape (d : Str) (gl : List Str) (hd : d ≠ [])
    (hdall : ∀ c ∈ d, isDigit c = true) (hlen : gl.length ≤ 6)
    (hgl : ∀ g ∈ gl, g ≠ [] ∧ ∀ c ∈ g, isDigit c = true) :
    isDottedNum (d ++ gl.flatMap dotGroup) = true := by
  unfold isDottedNum
  have happ := takeWhile_append_all isDigit d (gl.flatMap dotGroup) hdall
  have hhead := flatMap_dotGroup_head gl
  rw [if_neg ?hne]
  case hne =>
    rw [happ.1, hhead.1, List.append_nil]
    simpa using hd
  rw [happ.2, hhead.2]
  exact dottedTail_of_groups gl 6 hlen hgl

theorem parseGroups_props : ∀ (fuel : Nat) (s : Str),
    (parseGroups fuel s).1.length ≤ fuel ∧
    ∀ g ∈ (parseGroups fuel s).1, g ≠ [] ∧ ∀ c ∈ g, isDigit c = true
  | 0, s => by simp [parseGroups]
  | fuel + 1, s => by
    cases s with
    | nil => simp [parseGroups]
    | cons c t =>
      rw [parseGroups]
      by_cases hc : c = '.' ∧ t.takeWhile isDigit ≠ []
      · rw [if_pos hc]
        have ih := parseGroups_props fuel (t.dropWhile isDigit)
        constructor
        · simp only [List.length_cons]
          omega
        · intro g hg
          rcases List.mem_cons.mp hg with h | h
          · subst h
            exact ⟨hc.2, fun x hx => List.mem_takeWhile_imp hx⟩
          · exact ih.2 g h
      · rw [if_neg hc]
        simp

theorem tryNum_shape (d : Str) (gs : List Str) (rest0 : Str) :
    ∀ (k : Nat) (num rest : Str), tryNum d gs rest0 k = some (num, rest) →
    ∃ k2, k2 ≤ k ∧ num = d ++ (gs.take k2).flatMap dotGroup
  | 0, num, rest, h => by
    rw [tryNum] at h
    split at h
    · cases h
      exact ⟨0, le_rfl, by simp⟩
    · cases h
  | k + 1, num, rest, h => by
    rw [tryNum] at h
    split at h
    · cases h
      exact ⟨k + 1, le_rfl, rfl⟩
    · obtain ⟨k2, hk2, hnum⟩ := tryNum_shape d gs rest0 k num rest h
      exact ⟨k2, by omega, hnum⟩

theorem parseNumSep_shape (s num rest : Str)
    (h : parseNumSep s = some (num, rest)) : isDottedNum num = true := by
  unfold parseNumSep at h
  by_cases hd : s.takeWhile isDigit = []
  · rw [if_pos hd] at h
    cases h
  · rw [if_neg hd] at h
    obtain ⟨k2, -, hnum⟩ := tryNum_shape _ _ _ _ _ _ h
    obtain ⟨hlen, hprops⟩ := parseGroups_props 6 (s.dropWhile isDigit)
    rw [hnum]
    refine isDottedNum_of_shape _ _ hd
      (fun c hc => List.mem_takeWhile_imp hc) ?_ ?_
    · calc ((parseGroups 6 (s.dropWhile isDigit)).1.take k2).length ≤
          (parseGroups 6 (s.dropWhile isDigit)).1.length :=
            by simp [List.length_take]
        _ ≤ 6 := hlen
    · intro g hg
      exact hprops g (List.mem_of_mem_take hg)

theorem firstParse_some : ∀ (cands : List Str) (num rest : Str),
    firstParse cands = some (num, rest) →
    ∃ c ∈ cands, parseNumSep c = some (num, rest)
  | [], _, _, h => by cases h
  | c :: cs, num, rest, h => by
    rw [firstParse] at h
    split at h
    · cases h
      exact ⟨c, List.mem_cons_self c cs, by assumption⟩
    · obtain ⟨c2, hc2, hp⟩ := firstParse_some cs num rest h
      exact ⟨c2, List.mem_cons_of_mem c hc2, hp⟩

/-- Every `num` captured by the heading pattern is a dotted numeric string
of 1–7 components. -/
theorem matchClauseStart_dotted (line num rest : Str)
    (h : matchClauseStart line = some (num, rest)) : isDottedNum num = true := by
  obtain ⟨c, -, hc⟩ := firstParse_some _ _ _ h
  exact parseNumSep_shape c num rest hc

theorem pushFrag_keys (m : List (Str × List Str)) (k : Str) (f : Str) :
    ∀ e ∈ pushFrag m k f, ∃ e2 ∈ m, e.1 = e2.1 := by
  intro e he
  obtain ⟨e2, he2, hee⟩ := List.mem_map.mp he
  refine ⟨e2, he2, ?_⟩
  rw [← hee]
  split <;> rfl

theorem segStep_inv (st : SegSt) (ln : Str)
    (h : ∀ e ∈ st.clauses, isDottedNum e.1 = true) :
    ∀ e ∈ (segStep st ln).clauses, isDottedNum e.1 = true := by
  unfold segStep
  split
  · exact h
  · split
    case _ nr heq =>
      intro e he
      dsimp only at he
      obtain ⟨e2, he2, hkey⟩ : ∃ e2 ∈ (if segHasKey st.clauses nr.1 then
          st.clauses else st.clauses ++ [(nr.1, [])]), e.1 = e2.1 := by
        split at he
        · exact pushFrag_keys _ _ _ e he
        · exact ⟨e, he, rfl⟩
      rw [hkey]
      split at he2
      · exact h e2 he2
      · rcases List.mem_append.mp he2 with h2 | h2
        · exact h e2 h2
        · have : e2 = (nr.1, []) := List.mem_singleton.mp h2
          rw [this]
          exact matchClauseStart_dotted ln nr.1 nr.2 (by rw [heq])
    case _ heq =>
      split
      · exact h
      case _ cur hcur =>
        intro e he
        obtain ⟨e2, he2, hkey⟩ := pushFrag_keys _ _ _ e he
        rw [hkey]
        exact h e2 he2

theorem trimWS_idem (s : Str) : trimWS (trimWS s) = trimWS s :=
  trimWS_fix _ (trimWS_headNW s) (trimWS_lastNW s)

/-- Shape of every entry produced by segmentation: the key matches
`\d+(\.\d+){0,6}` and the stored body is its own trim. -/
theorem extractClauses_entry (text : Str) :
    ∀ e ∈ extractClausesFromText text,
      isDottedNum e.1 = true ∧ trimWS e.2 = e.2 := by
  intro e he
  unfold extractClausesFromText at he
  obtain ⟨e2, he2, hee⟩ := List.mem_map.mp he
  have hfold : ∀ (ls : List Str) (st : SegSt),
      (∀ x ∈ st.clauses, isDottedNum x.1 = true) →
      ∀ x ∈ (ls.foldl segStep st).clauses, isDottedNum x.1 = true := by
    intro ls
    induction ls with
    | nil => exact fun st h => h
    | cons l ls' ih => exact fun st h => ih _ (segStep_inv st l h)
  constructor
  · rw [← hee]
    exact hfold _ ⟨none, []⟩ (by intro x hx; cases hx) e2 he2
  · rw [← hee]
    exact trimWS_idem _

/-! ### Claims -/

/-- C1 (counterexample): with the sentinel `1e9` padding, a shorter
reference sorts AFTER its dotted extensions, so the diff list for the refs
`["2", "2.1", "10", "2.2"]` comes out as `["2.1", "2.2", "2", "10"]`, not
in the claimed order `["2", "2.1", "2.2", "10"]`. -/
theorem C1_counterexample :
    (compareClauses [("2".toList, []), ("2.1".toList, []), ("10".toList, []),
      ("2.2".toList, [])] [] [] (197/200)).map Diff.clause_ref =
      ["2.1".toList, "2.2".toList, "2".toList, "10".toList] ∧
    ["2.1".toList, "2.2".toList, "2".toList, "10".toList] ≠
      ["2".toList, "2.1".toList, "2.2".toList, "10".toList] := by
  constructor
  · decide
  · decide

/-- C1 (amended): the diff list returned by `compareClauses` is sorted under
the comparator (primary key the component-wise numeric `sortClauseRef`, in
which a shorter reference sorts after its extensions because missing
components are padded with the large sentinel): for the input references
`["2", "2.1", "10", "2.2"]` the sorted order is `["2.1", "2.2", "2", "10"]`. -/
theorem C1_diffs_sorted :
    (∀ (et cl : List (Str × Str)) (pats : List Str) (θ : ℚ),
      (compareClauses et cl pats θ).Pairwise (fun x y => cmpDiff x y ≤ 0)) ∧
    (compareClauses [("2".toList, []), ("2.1".toList, []), ("10".toList, []),
      ("2.2".toList, [])] [] [] (197/200)).map Diff.clause_ref =
      ["2.1".toList, "2.2".toList, "2".toList, "10".toList] :=
  ⟨fun et cl pats θ => compareClauses_sorted et cl pats θ, by decide⟩

/-- C2 (counterexample): the similarity ratio is not symmetric: for
`a = "aba"`, `b = "babba"` the ratio is `3/4` one way and `1/2` the other
(the longest-common-substring tie-breaking matches different segments). -/
theorem C2_counterexample :
    similarityRatio ['a', 'b', 'a'] ['b', 'a', 'b', 'b', 'a'] ≠
      similarityRatio ['b', 'a', 'b', 'b', 'a'] ['a', 'b', 'a'] := by
  have e1 : roMatches ['a', 'b', 'a'] ['b', 'a', 'b', 'b', 'a'] = 3 := by
    rw [← roMatchesF_eq 3 _ _ (by decide)]
    decide
  have e2 : roMatches ['b', 'a', 'b', 'b', 'a'] ['a', 'b', 'a'] = 2 := by
    rw [← roMatchesF_eq 5 _ _ (by decide)]
    decide
  unfold similarityRatio
  rw [if_neg (by decide), if_neg (by decide), e1, e2]
  simp only [List.length_cons, List.length_nil]
  norm_num

/-- C2 (amended): symmetry of `similarityRatio` holds when either string is
empty (both directions give `0`, or `1` when both are empty); for general
strings it can fail. -/
theorem C2_symm_of_empty (a b : Str) (h : a = [] ∨ b = []) :
    similarityRatio a b = similarityRatio b a := by
  rcases h with h | h
  · subst h
    by_cases hb : b = []
    · subst hb
      rfl
    · unfold similarityRatio
      rw [if_neg (fun hc => hb hc.2), if_neg (fun hc => hb hc.1),
        roMatches_nil_left, roMatches_nil_right]
      simp
  · subst h
    by_cases ha : a = []
    · subst ha
      rfl
    · unfold similarityRatio
      rw [if_neg (fun hc => ha hc.1), if_neg (fun hc => ha hc.2),
        roMatches_nil_left, roMatches_nil_right]
      simp

/-- C2 witness: the amended symmetry at a concrete pair. -/
theorem C2_symm_witness :
    similarityRatio [] ['a'] = similarityRatio ['a'] [] :=
  C2_symm_of_empty [] ['a'] (Or.inl rfl)

/-- C3: per clause reference, `compareClauses` emits exactly one MISSING
record when the reference clause is absent from the candidate, exactly one
EXTRA record when a candidate clause is absent from the reference, exactly
one CHANGED record carrying the similarity of the normalized bodies when
present in both and below threshold — and otherwise nothing, so no clause
reference yields more than one discrepancy. -/
theorem C3_compare_per_ref (et cl : List (Str × Str)) (pats : List Str)
    (θ : ℚ) (r : Str) (hne : (et.map Prod.fst).Nodup)
    (hnc : (cl.map Prod.fst).Nodup) :
    (compareClauses et cl pats θ).filter (fun d => d.clause_ref = r) =
      match mapGet? et r, mapGet? cl r with
      | some _, none => [⟨r, "MISSING".toList, none⟩]
      | some eb, some cb =>
        if similarityRatio (normalizeForCmp pats eb)
            (normalizeForCmp pats cb) < θ then
          [⟨r, "CHANGED".toList, some (similarityRatio
            (normalizeForCmp pats eb) (normalizeForCmp pats cb))⟩]
        else []
      | none, some _ => [⟨r, "EXTRA".toList, none⟩]
      | none, none => [] := by
  rw [compareClauses_filter_key et cl pats θ r hne hnc]
  unfold mapGet?
  cases hfe : et.find? (fun e => e.1 = r) with
  | some e =>
    have he : e.1 = r := by simpa using List.find?_some hfe
    cases hfc : cl.find? (fun e => e.1 = r) with
    | some c =>
      have hc : c.1 = r := by simpa using List.find?_some hfc
      dsimp only [Option.map]
      rw [he]
    | none =>
      dsimp only [Option.map]
      rw [he]
  | none =>
    cases hfc : cl.find? (fun e => e.1 = r) with
    | some c =>
      have hc : c.1 = r := by simpa using List.find?_some hfc
      dsimp only [Option.map]
      rw [hc]
    | none => rfl

/-- C3 witness: a concrete instantiation (reference clause missing from the
candidate yields exactly one MISSING record). -/
theorem C3_witness :
    (compareClauses [("1".toList, "a".toList)] [("2".toList, "b".toList)]
      [] 1).filter (fun d => d.clause_ref = "1".toList) =
      [⟨"1".toList, "MISSING".toList, none⟩] := by
  rw [C3_compare_per_ref [("1".toList, "a".toList)]
    [("2".toList, "b".toList)] [] 1 "1".toList (by decide) (by decide)]
  decide

/-- C4: `classifyStatus` returns OK exactly when the diff list is empty,
NOT_APPLIED exactly when some diff is a critical failure (its reference in
the critical set and it is MISSING, or CHANGED with similarity below the
critical floor), DIFFS otherwise; the result is invariant under permutation
of the diff list. -/
theorem C4_classify (diffs : List Diff) (crit : List Str) (minSim : ℚ) :
    (classifyStatus diffs crit minSim = "OK".toList ↔ diffs = []) ∧
    (classifyStatus diffs crit minSim = "NOT_APPLIED".toList ↔
      ∃ d ∈ diffs, critFail crit minSim d) ∧
    (classifyStatus diffs crit minSim = "DIFFS".toList ↔
      diffs ≠ [] ∧ ∀ d ∈ diffs, ¬ critFail crit minSim d) ∧
    (∀ diffs2 : List Diff, diffs.Perm diffs2 →
      classifyStatus diffs crit minSim = classifyStatus diffs2 crit minSim) := by
  refine ⟨?_, ?_, ?_, ?_⟩
  · rw [classifyStatus_char]
    by_cases h0 : diffs = []
    · rw [if_pos h0]
      simp [h0]
    · rw [if_neg h0]
      constructor
      · intro hc
        split at hc <;> exact absurd hc (by decide)
      · intro hc
        exact absurd hc h0
  · rw [classifyStatus_char]
    by_cases h0 : diffs = []
    · rw [if_pos h0]
      subst h0
      constructor
      · intro hc
        exact absurd hc (by decide)
      · rintro ⟨d, hd, -⟩
        cases hd
    · rw [if_neg h0]
      by_cases hx : ∃ d ∈ diffs, critFail crit minSim d
      · rw [if_pos hx]
        simp [hx]
      · rw [if_neg hx]
        constructor
        · intro hc
          exact absurd hc (by decide)
        · intro hc
          exact absurd hc hx
  · rw [classifyStatus_char]
    by_cases h0 : diffs = []
    · rw [if_pos h0]
      constructor
      · intro hc
        exact absurd hc (by decide)
      · rintro ⟨hne, -⟩
        exact absurd h0 hne
    · rw [if_neg h0]
      by_cases hx : ∃ d ∈ diffs, critFail crit minSim d
      · rw [if_pos hx]
        constructor
        · intro hc
          exact absurd hc (by decide)
        · rintro ⟨-, hall⟩
          obtain ⟨d, hd, hfd⟩ := hx
          exact absurd hfd (hall d hd)
      · rw [if_neg hx]
        constructor
        · intro _
          exact ⟨h0, fun d hd hfd => hx ⟨d, hd, hfd⟩⟩
        · intro _
          rfl
  · intro diffs2 hperm
    rw [classifyStatus_char, classifyStatus_char]
    have he : diffs = [] ↔ diffs2 = [] := by
      constructor
      · intro h
        subst h
        exact hperm.symm.eq_nil
      · intro h
        subst h
        exact hperm.eq_nil
    have hex : (∃ d ∈ diffs, critFail crit minSim d) ↔
        (∃ d ∈ diffs2, critFail crit minSim d) := by
      constructor <;> rintro ⟨x, hx, hfx⟩
      · exact ⟨x, hperm.mem_iff.mp hx, hfx⟩
      · exact ⟨x, hperm.mem_iff.mpr hx, hfx⟩
    by_cases h0 : diffs = []
    · rw [if_pos h0, if_pos (he.mp h0)]
    · rw [if_neg h0, if_neg (fun hc => h0 (he.mpr hc))]
      by_cases hx : ∃ d ∈ diffs, critFail crit minSim d
      · rw [if_pos hx, if_pos (hex.mp hx)]
      · rw [if_neg hx, if_neg (fun hc => hx (hex.mpr hc))]

/-- C4 witness: the empty diff list classifies as OK. -/
theorem C4_witness : classifyStatus [] [] 0 = "OK".toList :=
  ((C4_classify [] [] 0).1).mpr rfl

/-- C5: segmenting `"2.1 Foo\nbar\n\n2.2 Baz"` yields exactly
`{"2.1" ↦ "Foo\nbar", "2.2" ↦ "Baz"}`: the blank line is dropped, the
continuation line is joined with a newline, and each body is trimmed. -/
theorem C5_segmentation :
    extractClausesFromText "2.1 Foo\nbar\n\n2.2 Baz".toList =
      [("2.1".toList, "Foo\nbar".toList), ("2.2".toList, "Baz".toList)] := by
  decide

/-- C6 (counterexample): normalization is not idempotent in general: with
the single ignore pattern `"ab"`, the text `"aabb"` normalizes to `"ab"`
(the removal creates a fresh occurrence), and normalizing that output again
removes it, giving `""`. -/
theorem C6_counterexample :
    normalizeForCmp ["ab".toList]
      (normalizeForCmp ["ab".toList] "aabb".toList) ≠
    normalizeForCmp ["ab".toList] "aabb".toList := by
  decide

/-- C6 (amended): applying the normalization transform to its own output
returns that output unchanged, provided no ignore pattern matches the
normalized output (as is always the case for an empty pattern list);
a pattern that matches the normalized output breaks idempotence. -/
theorem C6_normalize_idem (pats : List Str) (t : Str)
    (h : ∀ p ∈ pats, removeAllCI p (normalizeForCmp pats t) =
      normalizeForCmp pats t) :
    normalizeForCmp pats (normalizeForCmp pats t) =
      normalizeForCmp pats t :=
  normalizeForCmp_idem pats t h

/-- C6 witness: the amended idempotence at a concrete input. -/
theorem C6_witness :
    normalizeForCmp [] (normalizeForCmp [] "a  B ".toList) =
      normalizeForCmp [] "a  B ".toList :=
  C6_normalize_idem [] "a  B ".toList (fun p hp => absurd hp
    (List.not_mem_nil p))

/-- C7: the similarity of every string to itself is exactly 1 (this covers
the empty string, whose self-similarity is the defined value 1). -/
theorem C7_similarity_self (a : Str) : similarityRatio a a = 1 := by
  unfold similarityRatio
  rcases eq_or_ne a [] with h | h
  · rw [if_pos ⟨h, h⟩]
  · rw [if_neg (fun hc => h hc.1), roMatches_self]
    have hl : 0 < a.length := List.length_pos.mpr h
    have hd : (a.length : ℚ) + a.length ≠ 0 := by
      have hq : (0 : ℚ) < (a.length : ℚ) := by exact_mod_cast hl
      have : (0 : ℚ) < (a.length : ℚ) + a.length := by linarith
      exact ne_of_gt this
    rw [div_eq_one_iff_eq hd]
    ring

/-- C8: the similarity ratio always lies in the closed interval `[0, 1]`. -/
theorem C8_ratio_range (a b : Str) :
    0 ≤ similarityRatio a b ∧ similarityRatio a b ≤ 1 := by
  unfold similarityRatio
  by_cases h : a = [] ∧ b = []
  · rw [if_pos h]
    norm_num
  · rw [if_neg h]
    have hlen : 0 < a.length + b.length := by
      by_contra hc
      push_neg at hc
      exact h ⟨List.eq_nil_of_length_eq_zero (by omega),
        List.eq_nil_of_length_eq_zero (by omega)⟩
    have hd : (0 : ℚ) < (a.length : ℚ) + b.length := by exact_mod_cast hlen
    obtain ⟨h1, h2⟩ := roMatches_le a b
    have hq1 : (roMatches a b : ℚ) ≤ a.length := by exact_mod_cast h1
    have hq2 : (roMatches a b : ℚ) ≤ b.length := by exact_mod_cast h2
    constructor
    · apply div_nonneg
      · positivity
      · linarith
    · rw [div_le_one hd]
      linarith

/-- C9: every key produced by segmentation is a dotted numeric string of 1
to 7 components (matching `\d+(\.\d+){0,6}`), and every stored body equals
its own trim. -/
theorem C9_segment_shape (text : Str) :
    ∀ e ∈ extractClausesFromText text,
      isDottedNum e.1 = true ∧ trimWS e.2 = e.2 :=
  extractClauses_entry text

/-- C9 witness: the shape facts at a concrete segmented document. -/
theorem C9_witness :
    isDottedNum ("2.1".toList) = true ∧
      trimWS ("Foo".toList) = "Foo".toList :=
  C9_segment_shape "2.1 Foo".toList ("2.1".toList, "Foo".toList) (by decide)

end Simularity
